import Mathlib

/-!
Verification of the cartesian tuple-function diagram core (`cartesian.py`)
and the mapping-or-callable utility (`discopy/utils.py`).

Python values flowing through diagrams are modelled by `PyVal`: an opaque
scalar (`atom`) or a tuple of values (`tup`).  Fallible Python code is
modelled with `Except PyErr`.  Arities (`PRO` objects) are natural numbers;
offsets are integers, as in Python.
-/

namespace Cartesian

/-- Error kinds raised by the Python code: `AxiomError` for arity mismatches,
`TypeError` for type mismatches, `KeyError` for missing dictionary keys. -/
inductive PyErr : Type where
  | axiomError : PyErr
  | typeError  : PyErr
  | keyError   : PyErr
deriving DecidableEq, Repr

/-- A Python value: an opaque scalar or a tuple of values. -/
inductive PyVal (α : Type) : Type where
  | atom : α → PyVal α
  | tup  : List (PyVal α) → PyVal α

/-- Source `tuplify(xs)`: `xs if isinstance(xs, tuple) else (xs,)`,
viewed as the list of components the tuple would splat into. -/
def tuplify {α : Type} : PyVal α → List (PyVal α)
  | .tup xs => xs
  | .atom a => [.atom a]

/-- Source `untuplify(*xs)`: `xs[0] if len(xs) == 1 else xs`. -/
def untuplify {α : Type} : List (PyVal α) → PyVal α
  | [v] => v
  | l => .tup l

/-- A list of values all of which are scalars (no tuple-valued wire). -/
def IsFlat {α : Type} (s : List (PyVal α)) : Prop :=
  ∀ v ∈ s, ∃ a, v = PyVal.atom a

/-- Source class `Function`: wraps a python function with domain and codomain
arities.  The wrapped callable may itself raise, hence `Except`. -/
structure Function (α : Type) where
  dom : ℕ
  cod : ℕ
  function : List (PyVal α) → Except PyErr (PyVal α)

/-- Source `Function.__call__`: raises `AxiomError` unless the number of
arguments equals the domain arity, otherwise invokes the wrapped function. -/
def Function.call {α : Type} (f : Function α) (values : List (PyVal α)) :
    Except PyErr (PyVal α) :=
  if values.length = f.dom then f.function values else .error .axiomError

/-- The composite built by `Function.then` on the success path:
`Function(self.dom, other.cod, lambda *vals: other(*tuplify(self(*vals))))`. -/
def Function.thenF {α : Type} (f g : Function α) : Function α :=
  ⟨f.dom, g.cod, fun vals =>
    match f.call vals with
    | .ok r => g.call (tuplify r)
    | .error e => .error e⟩

/-- Source `Function.then` after the isinstance check: raises `AxiomError`
when `len(self.cod) != len(other.dom)`, else returns the composite. -/
def Function.thenE {α : Type} (f g : Function α) : Except PyErr (Function α) :=
  if f.cod = g.dom then .ok (f.thenF g) else .error .axiomError

/-- An argument passed to `Function.then`: either a `Function` or some
non-`Function` Python object. -/
inductive PyArg (α : Type) : Type where
  | fn    : Function α → PyArg α
  | other : α → PyArg α

/-- Source `Function.then` including the isinstance check, which raises
`TypeError` on a non-`Function` operand. -/
def Function.thenAny {α : Type} (f : Function α) (o : PyArg α) :
    Except PyErr (Function α) :=
  match o with
  | .fn g => f.thenE g
  | .other _ => .error .typeError

/-- Source `Function.tensor` (after the isinstance check): the `product`
function splits the input at `len(self.dom)`, evaluates each half, and
returns `untuplify(*(vals0 + vals1))`. -/
def Function.tensorF {α : Type} (f g : Function α) : Function α :=
  ⟨f.dom + g.dom, f.cod + g.cod, fun vals =>
    match f.call (vals.take f.dom) with
    | .error e => .error e
    | .ok r0 =>
      match g.call (vals.drop f.dom) with
      | .error e => .error e
      | .ok r1 => .ok (untuplify (tuplify r0 ++ tuplify r1))⟩

/-- Source `Function.id(dom) = Function(dom, dom, untuplify)`. -/
def Function.id {α : Type} (dom : ℕ) : Function α :=
  ⟨dom, dom, fun vals => .ok (untuplify vals)⟩

/-- Source class `cartesian.Box`: a named box with arities and a wrapped
python function; as a diagram it is a single layer `[self]` at offset `[0]`. -/
structure Box (α : Type) where
  name : String
  dom : ℕ
  cod : ℕ
  function : List (PyVal α) → Except PyErr (PyVal α)

/-- Source class `cartesian.Diagram`: boxes with integer offsets and
domain/codomain arities. -/
structure Diagram (α : Type) where
  dom : ℕ
  cod : ℕ
  boxes : List (Box α)
  offsets : List ℤ

/-- Source class `Id`: `Diagram(dom, dom, [], [])`. -/
def IdD {α : Type} (n : ℕ) : Diagram α := ⟨n, n, [], []⟩

/-- A box viewed as a one-layer diagram (`Diagram.__init__(dom, cod, [self], [0])`). -/
def Box.toDiagram {α : Type} (b : Box α) : Diagram α := ⟨b.dom, b.cod, [b], [0]⟩

/-- Sequential composition of diagram data, as the base category concatenates
layers: box sequences and offsets are concatenated, the right offsets staying
relative to their own diagram. -/
def Diagram.compD {α : Type} (d e : Diagram α) : Diagram α :=
  ⟨d.dom, e.cod, d.boxes ++ e.boxes, d.offsets ++ e.offsets⟩

/-- Checked sequential composition (`>>`): raises `AxiomError` when the
codomain arity of the left operand differs from the domain arity of the right. -/
def Diagram.thenD {α : Type} (d e : Diagram α) : Except PyErr (Diagram α) :=
  if d.cod = e.dom then .ok (d.compD e) else .error .axiomError

/-- Parallel composition (`@`): arities add and the right operand's offsets
are shifted by the left diagram's codomain width. -/
def Diagram.tensorD {α : Type} (d e : Diagram α) : Diagram α :=
  ⟨d.dom + e.dom, d.cod + e.cod, d.boxes ++ e.boxes,
   d.offsets ++ e.offsets.map (fun o => o + (d.cod : ℤ))⟩

/-- Source `COPY = Box('copy', 1, 2, lambda *x: x + x)`. -/
def COPYbox {α : Type} : Box α :=
  ⟨"copy", 1, 2, fun x => .ok (.tup (x ++ x))⟩

/-- Source `SWAP = Box('swap', 2, 2, lambda x, y: (y, x))`; the lambda raises
`TypeError` unless called with exactly two arguments. -/
def SWAPbox {α : Type} : Box α :=
  ⟨"swap", 2, 2, fun vals =>
    match vals with
    | [x, y] => .ok (.tup [y, x])
    | _ => .error .typeError⟩

/-- Source `DISCARD = Box('discard', 1, 0, lambda *x: ())`. -/
def DISCARDbox {α : Type} : Box α :=
  ⟨"discard", 1, 0, fun _ => .ok (.tup [])⟩

/-- Source `Swap.__init__`:
`boxes = [SWAP for i in range(left) for j in range(right)]` and
`offsets = [left + i - 1 - j for j in range(left) for i in range(right)]`,
with `dom = PRO(left) @ PRO(right)` and `cod = PRO(right) @ PRO(left)`. -/
def SwapD {α : Type} (left right : ℕ) : Diagram α :=
  ⟨left + right, right + left,
   ((List.range left).map (fun _ => (List.range right).map
      (fun _ => (SWAPbox : Box α)))).flatten,
   ((List.range left).map (fun (j : ℕ) => (List.range right).map
      (fun (i : ℕ) => (left : ℤ) + (i : ℤ) - 1 - (j : ℤ)))).flatten⟩

/-- The `swaps` accumulator in `Copy.__init__`: `Id(0)` tensored with
`m` copies of `SWAP`. -/
def swapsRow {α : Type} (m : ℕ) : Diagram α :=
  (List.range m).foldl (fun acc _ => acc.tensorD (SWAPbox : Box α).toDiagram) (IdD 0)

/-- The first loop of `Copy.__init__`: `Id(0)` tensored with `n` copies of `COPY`. -/
def copiesRow {α : Type} (n : ℕ) : Diagram α :=
  (List.range n).foldl (fun acc _ => acc.tensorD (COPYbox : Box α).toDiagram) (IdD 0)

/-- The loop body of the second loop of `Copy.__init__`:
`result = result >> Id(i) @ swaps @ Id(i)` with `swaps` a tensor of `n - i`
elementary swaps (the `>>` arity check succeeds at every iteration). -/
def copyStep {α : Type} (n : ℕ) (acc : Diagram α) (i : ℕ) : Diagram α :=
  acc.compD (((IdD i).tensorD (swapsRow (n - i))).tensorD (IdD i))

/-- Source `Copy.__init__`: tensor `n` copy boxes, then for `i` in
`range(1, n)` compose with `Id(i) @ swaps @ Id(i)`; the final diagram is
rebuilt with `dom = n`, `cod = 2 * n` and the accumulated boxes and
offsets. -/
def CopyD {α : Type} (n : ℕ) : Diagram α :=
  let result := (List.range' 1 (n - 1)).foldl (copyStep n) (copiesRow n)
  ⟨n, 2 * n, result.boxes, result.offsets⟩

/-- Modelled from the spec: `Discard(n)` "tensors `n` elementary
1-ary-to-0-ary discard boxes; domain `n`, codomain `0`".  The source's
`Discard.__init__` is declared as `def __init__(dom):` without the `self`
parameter, so the construction in the source body can never run; the body
(`result = Id(0)` tensored with `DISCARD` for `i in range(dom)`, then
`Diagram.__init__(result.dom, result.cod, result.boxes, result.offsets)`)
is transcribed here as intended. -/
def DiscardD {α : Type} (n : ℕ) : Diagram α :=
  let result := (List.range n).foldl
    (fun acc _ => acc.tensorD (DISCARDbox : Box α).toDiagram) (IdD 0)
  ⟨result.dom, result.cod, result.boxes, result.offsets⟩

/-- The arrow map of the implicit evaluation functor in `Diagram.__call__`:
`Quiver(lambda f: Function(len(f.dom), len(f.cod), f.function))`. -/
def armStd {α : Type} (b : Box α) : Function α := ⟨b.dom, b.cod, b.function⟩

/-- One layer of a functor image: `Id(ob(scan[:off])) @ ar(box) @
Id(ob(scan[off + len(box.dom):]))`, where `w` is the current width of the
abstract diagram and `obm` the (monoidal) action of the object map on arities. -/
def layerF {α : Type} (obm : ℕ → ℕ) (arm : Box α → Function α)
    (w : ℕ) (b : Box α) (o : ℤ) : Function α :=
  ((Function.id (obm o.toNat)).tensorF (arm b)).tensorF
    (Function.id (obm (w - o.toNat - b.dom)))

/-- The fold at the heart of functor application: sequentially compose the
accumulated arrow with one layer per box, threading the abstract width. -/
def applyFunctorGo {α : Type} (obm : ℕ → ℕ) (arm : Box α → Function α) :
    List (Box α × ℤ) → Function α → ℕ → Function α
  | [], acc, _ => acc
  | (b, o) :: rest, acc, w =>
    applyFunctorGo obm arm rest (acc.thenF (layerF obm arm w b o)) (w - b.dom + b.cod)

/-- Modelled from the spec: the generic functor application engine
(`rigidcat.RigidFunctor.__call__` is not under `src/`): "the fold of
`arrow_map` over the diagram's box sequence combined with identity arrows at
the correct positions, matching the diagram's layering", starting from the
identity arrow on the image of the domain.  The sequential compositions in
the engine are the checked `then`, whose arity checks succeed for every
valid functor on every well-formed diagram. -/
def applyFunctor {α : Type} (obm : ℕ → ℕ) (arm : Box α → Function α)
    (d : Diagram α) : Function α :=
  applyFunctorGo obm arm (d.boxes.zip d.offsets) (Function.id (obm d.dom)) d.dom

/-- Source `Diagram.__call__`: build the implicit `PythonFunctor` with
`ob = Quiver(lambda t: PRO(len(t)))` (identity on arities) and
`ar = Quiver(lambda f: Function(len(f.dom), len(f.cod), f.function))`,
apply it to the diagram and call the result. -/
def Diagram.call {α : Type} (d : Diagram α) (values : List (PyVal α)) :
    Except PyErr (PyVal α) :=
  (applyFunctor (fun n => n) armStd d).call values

/-- State-level evaluation of a box sequence: each box reads `obm(box.dom)`
values at the scaled offset, and its (tuplified) result replaces them. -/
def evalBoxes {α : Type} (obm : ℕ → ℕ) (arm : Box α → Function α) :
    List (Box α × ℤ) → List (PyVal α) → Except PyErr (List (PyVal α))
  | [], s => .ok s
  | (b, o) :: rest, s =>
    match (arm b).call ((s.drop (obm o.toNat)).take (arm b).dom) with
    | .error e => .error e
    | .ok r =>
      evalBoxes obm arm rest
        (s.take (obm o.toNat) ++ tuplify r ++ s.drop (obm o.toNat + (arm b).dom))

/-- Offsets are in bounds at every layer (the §3 invariant
`offsets[i] + len(boxes[i].dom) ≤ current width`), width threaded box by box. -/
def widthsOk {α : Type} : ℕ → List (Box α × ℤ) → Prop
  | _, [] => True
  | w, (b, o) :: rest =>
    0 ≤ o ∧ o.toNat + b.dom ≤ w ∧ widthsOk (w - b.dom + b.cod) rest

/-- The width of the state after evaluating a box sequence from width `w`. -/
def finalWidth {α : Type} : ℕ → List (Box α × ℤ) → ℕ
  | w, [] => w
  | w, (b, _) :: rest => finalWidth (w - b.dom + b.cod) rest

/-- A well-formed diagram: boxes and offsets have the same length, every
offset is in bounds, and the threaded width ends at the codomain arity. -/
def Diagram.WF {α : Type} (d : Diagram α) : Prop :=
  d.boxes.length = d.offsets.length ∧
  widthsOk d.dom (d.boxes.zip d.offsets) ∧
  finalWidth d.dom (d.boxes.zip d.offsets) = d.cod

/-- A concrete arrow fit for functor images on scalar wires: on every
all-scalar input of its domain arity it succeeds with a result whose
tuplification is all-scalar and has its codomain arity. -/
def GoodArrow {α : Type} (f : Function α) : Prop :=
  ∀ s, IsFlat s → s.length = f.dom →
    ∃ r, f.function s = .ok r ∧ IsFlat (tuplify r) ∧ (tuplify r).length = f.cod

/-- A box sequence with its offsets shifted by `c` wires, as parallel
composition does for the right-hand operand. -/
def shiftZ {α : Type} (c : ℕ) (l : List (Box α × ℤ)) : List (Box α × ℤ) :=
  l.map (fun p => (p.1, p.2 + (c : ℤ)))

/-- A row of `m` equal boxes at offsets `c, c + 2, c + 4, ...`: the shape of
the box/offset sequences arising in `Copy.__init__`. -/
def rowZip {α : Type} (b : Box α) : ℕ → ℕ → List (Box α × ℤ)
  | 0, _ => []
  | m + 1, c => (b, (c : ℤ)) :: rowZip b m (c + 2)

/-- The box/offset sequences of the swap phases `i, i+1, ..., i+m-1` of
`Copy.__init__` on `n` wires: phase `i` holds `n - i` swaps at offsets
`i, i+2, ...`. -/
def phasesZip {α : Type} (n : ℕ) : ℕ → ℕ → List (Box α × ℤ)
  | _, 0 => []
  | i, m + 1 => rowZip SWAPbox (n - i) i ++ phasesZip n (i + 1) m

/-- Interleaving of two equal-length lists: `join2 u v = [u0, v0, u1, v1, ...]`. -/
def join2 {β : Type} : List β → List β → List β
  | a :: as, b :: bs => a :: b :: join2 as bs
  | _, _ => []

/-- The evaluation state of `Copy.__init__`'s rearrangement after swap phase
`i` on an `n`-wire input `xs`: a sorted prefix, an interleaved middle, and a
sorted tail. -/
def Sstate {β : Type} (n : ℕ) (xs : List β) (i : ℕ) : List β :=
  xs.take (i + 1) ++ join2 (xs.take (n - i - 1)) (xs.drop (i + 1)) ++
    xs.drop (n - i - 1)

/-- A simple valid functor used to instantiate the functoriality theorem:
each box is sent to the constant arrow producing `cod` copies of `atom 0`. -/
def armC : Box ℕ → Function ℕ :=
  fun b => ⟨b.dom, b.cod, fun _ => .ok (.tup (List.replicate b.cod (.atom 0)))⟩

end Cartesian

namespace DiscopyUtils

/-- Source class `MappingOrCallable` (`discopy/utils.py`): `self.mapping` is
either a finite mapping (modelled as an association list, first match wins)
or a callable, and `self._inner_mapping` is the internal cache dictionary. -/
structure MappingOrCallable (κ ν : Type) where
  mapping : List (κ × ν) ⊕ (κ → ν)
  innerMapping : List (κ × ν)

/-- Dictionary lookup, first match wins; `none` models a `KeyError`. -/
def lookupA {κ ν : Type} [DecidableEq κ] : List (κ × ν) → κ → Option ν
  | [], _ => none
  | (k, v) :: rest, key => if key = k then some v else lookupA rest key

/-- Source `MappingOrCallable.__getitem__`: a `Mapping`-backed object looks
the item up (raising `KeyError` when absent); a callable-backed object first
consults `_inner_mapping` when the item is hashable, else calls the function.
`hashable` models `isinstance(item, Hashable)`. -/
def MappingOrCallable.getitem {κ ν : Type} [DecidableEq κ]
    (hashable : κ → Bool) (s : MappingOrCallable κ ν) (item : κ) :
    Except Cartesian.PyErr ν :=
  match s.mapping with
  | .inl m =>
    match lookupA m item with
    | some v => .ok v
    | none => .error .keyError
  | .inr f =>
    if hashable item then
      match lookupA s.innerMapping item with
      | some v => .ok v
      | none => .ok (f item)
    else .ok (f item)

/-- Source `MappingOrCallable.__setitem__`: store in the mapping itself when
it supports item assignment (a dictionary), else in `_inner_mapping`. -/
def MappingOrCallable.setitem {κ ν : Type} (s : MappingOrCallable κ ν)
    (key : κ) (value : ν) : MappingOrCallable κ ν :=
  match s.mapping with
  | .inl m => ⟨.inl ((key, value) :: m), s.innerMapping⟩
  | .inr f => ⟨.inr f, (key, value) :: s.innerMapping⟩

end DiscopyUtils

namespace Cartesian

theorem tuplify_untuplify_flat {α : Type} (s : List (PyVal α)) (h : IsFlat s) :
    tuplify (untuplify s) = s := by
  match s, h with
  | [], _ => rfl
  | [v], h =>
    obtain ⟨a, ha⟩ := h v (by simp)
    subst ha; rfl
  | v1 :: v2 :: t, _ => rfl

theorem isFlat_append {α : Type} {s t : List (PyVal α)}
    (hs : IsFlat s) (ht : IsFlat t) : IsFlat (s ++ t) := by
  intro v hv
  rcases List.mem_append.mp hv with h | h
  · exact hs v h
  · exact ht v h

theorem isFlat_take {α : Type} {s : List (PyVal α)} (hs : IsFlat s) (n : ℕ) :
    IsFlat (s.take n) := fun v hv => hs v (List.mem_of_mem_take hv)

theorem isFlat_drop {α : Type} {s : List (PyVal α)} (hs : IsFlat s) (n : ℕ) :
    IsFlat (s.drop n) := fun v hv => hs v (List.mem_of_mem_drop hv)

theorem isFlat_map_atom {α : Type} (xs : List α) : IsFlat (xs.map .atom) := by
  intro v hv
  obtain ⟨a, _, ha⟩ := List.mem_map.mp hv
  exact ⟨a, ha.symm⟩

theorem call_ok_length {α : Type} {f : Function α} {xs : List (PyVal α)}
    {y : PyVal α} (h : f.call xs = .ok y) : xs.length = f.dom := by
  by_contra hlen
  simp [Function.call, hlen] at h

/-- C7: calling a `Function` raises an arity mismatch (`AxiomError`) exactly
when the number of arguments differs from the domain arity, and otherwise
returns the wrapped function applied to the arguments. -/
theorem function_call_spec {α : Type} (f : Function α) (values : List (PyVal α)) :
    (values.length ≠ f.dom → f.call values = .error .axiomError) ∧
    (values.length = f.dom → f.call values = f.function values) := by
  constructor <;> intro h <;> simp [Function.call, h]

/-- Witness for C7: the identity arrow of arity 1 invoked with the two
arguments `(1, 2)` fails with an arity mismatch, while a one-argument call
returns the value. -/
theorem function_call_spec_witness :
    (Function.id 1 : Function ℕ).call [.atom 1, .atom 2] = .error .axiomError ∧
    (Function.id 1 : Function ℕ).call [.atom 1] = .ok (.atom 1) := by
  refine ⟨(function_call_spec _ _).1 (by decide), ?_⟩
  exact (function_call_spec (Function.id 1 : Function ℕ) [.atom 1]).2 rfl

/-- C6: `Function.then` raises `TypeError` on a non-`Function` operand,
raises an arity mismatch (`AxiomError`) when the codomain arity of `self`
differs from the domain arity of `other`, and otherwise returns a new
`Function` with domain `self.dom` and codomain `other.cod` whose evaluation
on any valid input evaluates `self`, tuplifies the result, and feeds it to
`other`. -/
theorem function_then_spec {α : Type} (f g : Function α) (x : α) :
    f.thenAny (.other x) = .error .typeError ∧
    (f.cod ≠ g.dom → f.thenAny (.fn g) = .error .axiomError) ∧
    (f.cod = g.dom →
      f.thenAny (.fn g) = .ok (f.thenF g) ∧
      (f.thenF g).dom = f.dom ∧ (f.thenF g).cod = g.cod ∧
      ∀ vals, vals.length = f.dom →
        (f.thenF g).call vals =
          match f.call vals with
          | .ok r => g.call (tuplify r)
          | .error e => .error e) := by
  refine ⟨rfl, ?_, ?_⟩
  · intro h; simp [Function.thenAny, Function.thenE, h]
  · intro h
    refine ⟨by simp [Function.thenAny, Function.thenE, h], rfl, rfl, ?_⟩
    intro vals hv
    simp [Function.call, Function.thenF, hv]

/-- Witness for C6: the three branches exercised on identity arrows. -/
theorem function_then_spec_witness :
    ((Function.id 1 : Function ℕ).thenAny (.other 0) = .error .typeError) ∧
    ((Function.id 1 : Function ℕ).thenAny (.fn (Function.id 2)) = .error .axiomError) ∧
    ((Function.id 1 : Function ℕ).thenAny (.fn (Function.id 1)) =
      .ok ((Function.id 1).thenF (Function.id 1))) ∧
    ((Function.id 1 : Function ℕ).thenF (Function.id 1)).call [.atom 5] =
      .ok (.atom 5) := by
  obtain ⟨h1, h2, -⟩ :=
    function_then_spec (Function.id 1 : Function ℕ) (Function.id 2) 0
  obtain ⟨-, -, h3⟩ :=
    function_then_spec (Function.id 1 : Function ℕ) (Function.id 1) 0
  refine ⟨h1, h2 (by decide), (h3 rfl).1, ?_⟩
  have h4 := (h3 rfl).2.2.2 [.atom 5] rfl
  simpa using h4

end Cartesian

namespace DiscopyUtils

/-- C9: resolving a key through `MappingOrCallable.__getitem__` returns the
finite table's entry when present (the backing mapping for a mapping-backed
object, raising `KeyError` when absent; the inner cache for a
callable-backed object when the key is hashable and cached), and otherwise
falls back to invoking the stored function on the key. -/
theorem mapping_or_callable_getitem_spec {κ ν : Type} [DecidableEq κ]
    (hashable : κ → Bool) (s : MappingOrCallable κ ν) (k : κ) :
    (∀ m, s.mapping = .inl m → ∀ v, lookupA m k = some v →
       s.getitem hashable k = .ok v) ∧
    (∀ m, s.mapping = .inl m → lookupA m k = none →
       s.getitem hashable k = .error .keyError) ∧
    (∀ f, s.mapping = .inr f → hashable k = true →
       ∀ v, lookupA s.innerMapping k = some v →
       s.getitem hashable k = .ok v) ∧
    (∀ f, s.mapping = .inr f →
       (hashable k = false ∨ lookupA s.innerMapping k = none) →
       s.getitem hashable k = .ok (f k)) := by
  obtain ⟨mp, inner⟩ := s
  refine ⟨?_, ?_, ?_, ?_⟩
  · intro m hm v hv
    cases hm
    simp [MappingOrCallable.getitem, hv]
  · intro m hm hv
    cases hm
    simp [MappingOrCallable.getitem, hv]
  · intro f hf hh v hv
    cases hf
    simp [MappingOrCallable.getitem, hh, hv]
  · intro f hf hcase
    cases hf
    rcases hcase with hh | hv
    · simp [MappingOrCallable.getitem, hh]
    · simp only [MappingOrCallable.getitem]
      by_cases hh : hashable k <;> simp [hh, hv]

/-- Witness for C9: a mapping-backed object with a present and an absent
key, and a callable-backed object with a cached and an uncached key. -/
theorem mapping_or_callable_getitem_spec_witness :
    (MappingOrCallable.getitem (fun _ => true)
      (⟨.inl [(1, 10)], []⟩ : MappingOrCallable ℕ ℕ) 1 = .ok 10) ∧
    (MappingOrCallable.getitem (fun _ => true)
      (⟨.inl [(1, 10)], []⟩ : MappingOrCallable ℕ ℕ) 2 = .error .keyError) ∧
    (MappingOrCallable.getitem (fun _ => true)
      (⟨.inr (fun x => x + 1), [(5, 50)]⟩ : MappingOrCallable ℕ ℕ) 5 = .ok 50) ∧
    (MappingOrCallable.getitem (fun _ => true)
      (⟨.inr (fun x => x + 1), [(5, 50)]⟩ : MappingOrCallable ℕ ℕ) 7 = .ok 8) := by
  obtain ⟨ha1, ha2, -, -⟩ := mapping_or_callable_getitem_spec (fun _ => true)
    (⟨.inl [(1, 10)], []⟩ : MappingOrCallable ℕ ℕ) 1
  obtain ⟨-, hb2, -, -⟩ := mapping_or_callable_getitem_spec (fun _ => true)
    (⟨.inl [(1, 10)], []⟩ : MappingOrCallable ℕ ℕ) 2
  obtain ⟨-, -, hc3, -⟩ := mapping_or_callable_getitem_spec (fun _ => true)
    (⟨.inr (fun x => x + 1), [(5, 50)]⟩ : MappingOrCallable ℕ ℕ) 5
  obtain ⟨-, -, -, hd4⟩ := mapping_or_callable_getitem_spec (fun _ => true)
    (⟨.inr (fun x => x + 1), [(5, 50)]⟩ : MappingOrCallable ℕ ℕ) 7
  exact ⟨ha1 _ rfl 10 (by decide), hb2 _ rfl (by decide),
    hc3 _ rfl rfl 50 (by decide), hd4 _ rfl (.inr (by decide))⟩

end DiscopyUtils

namespace Cartesian

/-- C5: `Swap(2, 3)` applied to `(0, 1, 2, 3, 4)` yields `(2, 3, 4, 0, 1)`:
the block of the first two values moves past the block of the last three. -/
theorem swap_two_three_eval {α : Type} (a0 a1 a2 a3 a4 : α) :
    (SwapD 2 3 : Diagram α).call [.atom a0, .atom a1, .atom a2, .atom a3, .atom a4]
      = .ok (.tup [.atom a2, .atom a3, .atom a4, .atom a0, .atom a1]) := rfl

theorem discard_fold_closed {α : Type} (n : ℕ) :
    (List.range n).foldl (fun acc _ => acc.tensorD (DISCARDbox : Box α).toDiagram) (IdD 0)
      = ⟨n, 0, List.replicate n DISCARDbox, List.replicate n 0⟩ := by
  induction n with
  | zero => rfl
  | succ n ih =>
    rw [List.range_succ, List.foldl_append, ih]
    simp [Diagram.tensorD, Box.toDiagram, DISCARDbox, List.replicate_succ']

/-- C3: the intended `Discard(n)` (the source constructor itself lacks its
`self` parameter and can never run) is the tensor of `n` elementary discard
boxes, with domain arity `n` and codomain arity `0`; in particular
`Discard(3)` applied to `(0, 1, 2)` yields `()`. -/
theorem discard_intended_behaviour {α : Type} (n : ℕ) (a b c : α) :
    (DiscardD n : Diagram α).dom = n ∧ (DiscardD n : Diagram α).cod = 0 ∧
    (DiscardD n : Diagram α).boxes = List.replicate n DISCARDbox ∧
    (DiscardD n : Diagram α).offsets = List.replicate n 0 ∧
    (DiscardD 3 : Diagram α).call [.atom a, .atom b, .atom c] = .ok (.tup []) := by
  refine ⟨?_, ?_, ?_, ?_, rfl⟩ <;> simp [DiscardD, discard_fold_closed]

/-- C8: the identity diagram of matching arity is neutral for sequential
composition on both sides, the empty identity is neutral for tensor on both
sides, and `Id(m) ⊗ d = d` fails for every `m > 0`. -/
theorem identity_laws {α : Type} (d : Diagram α) (n : ℕ)
    (h1 : d.dom = n) (h2 : d.cod = n) :
    (IdD n).thenD d = .ok d ∧ d.thenD (IdD n) = .ok d ∧
    (IdD 0).tensorD d = d ∧ d.tensorD (IdD 0) = d ∧
    ∀ m : ℕ, 0 < m → (IdD m).tensorD d ≠ d := by
  obtain ⟨dd, dc, bs, os⟩ := d
  simp only [Diagram.dom] at h1
  simp only [Diagram.cod] at h2
  subst h1
  subst h2
  refine ⟨?_, ?_, ?_, ?_, ?_⟩
  · simp [Diagram.thenD, Diagram.compD, IdD]
  · simp [Diagram.thenD, Diagram.compD, IdD]
  · simp [Diagram.tensorD, IdD]
  · simp [Diagram.tensorD, IdD]
  · intro m hm h
    have hdom := congrArg Diagram.dom h
    simp [Diagram.tensorD, IdD] at hdom
    omega

/-- Witness for C8: the laws instantiated at the one-box diagram `SWAP`. -/
theorem identity_laws_witness :
    (IdD 2).thenD (SWAPbox : Box ℕ).toDiagram = .ok (SWAPbox : Box ℕ).toDiagram ∧
    (SWAPbox : Box ℕ).toDiagram.thenD (IdD 2) = .ok (SWAPbox : Box ℕ).toDiagram ∧
    (IdD 0).tensorD (SWAPbox : Box ℕ).toDiagram = (SWAPbox : Box ℕ).toDiagram ∧
    (SWAPbox : Box ℕ).toDiagram.tensorD (IdD 0) = (SWAPbox : Box ℕ).toDiagram ∧
    (IdD 1).tensorD (SWAPbox : Box ℕ).toDiagram ≠ (SWAPbox : Box ℕ).toDiagram := by
  obtain ⟨g1, g2, g3, g4, g5⟩ := identity_laws (SWAPbox : Box ℕ).toDiagram 2 rfl rfl
  exact ⟨g1, g2, g3, g4, g5 1 (by decide)⟩

theorem thenF_congr_left {α : Type} (f1 f2 g : Function α)
    (hdom : f1.dom = f2.dom)
    (h : ∀ u, Except.map tuplify (f1.call u) = Except.map tuplify (f2.call u)) :
    ∀ vals, (f1.thenF g).call vals = (f2.thenF g).call vals := by
  intro vals
  have e1 : (f1.thenF g).call vals =
      if vals.length = f1.dom then
        (match f1.call vals with
         | .ok r => g.call (tuplify r)
         | .error e => .error e)
      else .error .axiomError := rfl
  have e2 : (f2.thenF g).call vals =
      if vals.length = f2.dom then
        (match f2.call vals with
         | .ok r => g.call (tuplify r)
         | .error e => .error e)
      else .error .axiomError := rfl
  rw [e1, e2, hdom]
  by_cases hv : vals.length = f2.dom
  · simp only [hv, if_true]
    have hc := h vals
    cases h1 : f1.call vals <;> cases h2 : f2.call vals <;>
      rw [h1, h2] at hc <;> simp [Except.map] at hc <;> simp [hc]
  · simp [hv]

theorem tensorF_congr_left {α : Type} (f1 f2 g : Function α)
    (hdom : f1.dom = f2.dom)
    (h : ∀ u, Except.map tuplify (f1.call u) = Except.map tuplify (f2.call u)) :
    ∀ vals, (f1.tensorF g).call vals = (f2.tensorF g).call vals := by
  intro vals
  have e1 : (f1.tensorF g).call vals =
      if vals.length = f1.dom + g.dom then
        (match f1.call (vals.take f1.dom) with
         | .error e => .error e
         | .ok r0 =>
           match g.call (vals.drop f1.dom) with
           | .error e => .error e
           | .ok r1 => .ok (untuplify (tuplify r0 ++ tuplify r1)))
      else .error .axiomError := rfl
  have e2 : (f2.tensorF g).call vals =
      if vals.length = f2.dom + g.dom then
        (match f2.call (vals.take f2.dom) with
         | .error e => .error e
         | .ok r0 =>
           match g.call (vals.drop f2.dom) with
           | .error e => .error e
           | .ok r1 => .ok (untuplify (tuplify r0 ++ tuplify r1)))
      else .error .axiomError := rfl
  rw [e1, e2, hdom]
  by_cases hv : vals.length = f2.dom + g.dom
  · simp only [hv, if_true]
    have hc := h (vals.take f2.dom)
    cases h1 : f1.call (vals.take f2.dom) <;>
      cases h2 : f2.call (vals.take f2.dom) <;>
      rw [h1, h2] at hc <;> simp [Except.map] at hc
    · simp [hc]
    · cases h3 : g.call (vals.drop f2.dom) <;> simp [hc]
  · simp [hv]

theorem tensorF_congr_right {α : Type} (g f1 f2 : Function α)
    (hdom : f1.dom = f2.dom)
    (h : ∀ u, Except.map tuplify (f1.call u) = Except.map tuplify (f2.call u)) :
    ∀ vals, (g.tensorF f1).call vals = (g.tensorF f2).call vals := by
  intro vals
  have e1 : (g.tensorF f1).call vals =
      if vals.length = g.dom + f1.dom then
        (match g.call (vals.take g.dom) with
         | .error e => .error e
         | .ok r0 =>
           match f1.call (vals.drop g.dom) with
           | .error e => .error e
           | .ok r1 => .ok (untuplify (tuplify r0 ++ tuplify r1)))
      else .error .axiomError := rfl
  have e2 : (g.tensorF f2).call vals =
      if vals.length = g.dom + f2.dom then
        (match g.call (vals.take g.dom) with
         | .error e => .error e
         | .ok r0 =>
           match f2.call (vals.drop g.dom) with
           | .error e => .error e
           | .ok r1 => .ok (untuplify (tuplify r0 ++ tuplify r1)))
      else .error .axiomError := rfl
  rw [e1, e2, hdom]
  by_cases hv : vals.length = g.dom + f2.dom
  · simp only [hv, if_true]
    have hc := h (vals.drop g.dom)
    cases h0 : g.call (vals.take g.dom)
    · simp
    · cases h1 : f1.call (vals.drop g.dom) <;>
        cases h2 : f2.call (vals.drop g.dom) <;>
        rw [h1, h2] at hc <;> simp [Except.map] at hc <;> simp [hc]
  · simp [hv]

theorem tensorF_congr_left_call {α : Type} (a1 a2 h : Function α)
    (hd : a1.dom = a2.dom) (hcall : ∀ u, a1.call u = a2.call u) :
    ∀ vals, (a1.tensorF h).call vals = (a2.tensorF h).call vals := by
  intro vals
  have e1 : (a1.tensorF h).call vals =
      if vals.length = a1.dom + h.dom then
        (match a1.call (vals.take a1.dom) with
         | .error e => .error e
         | .ok r0 =>
           match h.call (vals.drop a1.dom) with
           | .error e => .error e
           | .ok r1 => .ok (untuplify (tuplify r0 ++ tuplify r1)))
      else .error .axiomError := rfl
  have e2 : (a2.tensorF h).call vals =
      if vals.length = a2.dom + h.dom then
        (match a2.call (vals.take a2.dom) with
         | .error e => .error e
         | .ok r0 =>
           match h.call (vals.drop a2.dom) with
           | .error e => .error e
           | .ok r1 => .ok (untuplify (tuplify r0 ++ tuplify r1)))
      else .error .axiomError := rfl
  rw [e1, e2, hd, hcall]

theorem thenF_congr_right_call {α : Type} (g l1 l2 : Function α)
    (hcall : ∀ u, l1.call u = l2.call u) :
    ∀ vals, (g.thenF l1).call vals = (g.thenF l2).call vals := by
  intro vals
  have e1 : (g.thenF l1).call vals =
      if vals.length = g.dom then
        (match g.call vals with
         | .ok r => l1.call (tuplify r)
         | .error e => .error e)
      else .error .axiomError := rfl
  have e2 : (g.thenF l2).call vals =
      if vals.length = g.dom then
        (match g.call vals with
         | .ok r => l2.call (tuplify r)
         | .error e => .error e)
      else .error .axiomError := rfl
  rw [e1, e2]
  cases hg : g.call vals <;> simp [hcall]

theorem armStd_tupEq {α : Type} (b1 b2 : Box α) (hbd : b1.dom = b2.dom)
    (hbpair : ∀ vals, ∃ a : α, b1.function vals = .ok (.tup [.atom a]) ∧
              b2.function vals = .ok (.atom a)) :
    ∀ u, Except.map tuplify ((armStd b1).call u)
        = Except.map tuplify ((armStd b2).call u) := by
  intro u
  obtain ⟨a, e1, e2⟩ := hbpair u
  simp only [armStd, Function.call, hbd]
  by_cases hu : u.length = b2.dom <;> simp [hu, e1, e2, Except.map, tuplify]

/-- C10: `tuplify` and `untuplify` round-trip on scalars and on tuples of
length other than one, while a 1-tuple collapses to its bare element; a box
function returning a 1-tuple of a scalar is therefore indistinguishable
through `then`, `tensor` and diagram call from one returning the bare
scalar. -/
theorem tuplify_untuplify_roundtrip {α : Type} (f1 f2 : Function α)
    (hdom : f1.dom = f2.dom) (hcod : f1.cod = f2.cod)
    (hpair : ∀ vals, ∃ a : α, f1.function vals = .ok (.tup [.atom a]) ∧
             f2.function vals = .ok (.atom a)) :
    (∀ a : α, untuplify (tuplify (.atom a)) = .atom a) ∧
    (∀ xs : List (PyVal α), xs.length ≠ 1 → untuplify xs = .tup xs) ∧
    (∀ v : PyVal α, untuplify [v] = v) ∧
    (∀ (g : Function α) (vals : List (PyVal α)),
       (f1.thenF g).call vals = (f2.thenF g).call vals ∧
       (f1.tensorF g).call vals = (f2.tensorF g).call vals ∧
       (g.tensorF f1).call vals = (g.tensorF f2).call vals) ∧
    (∀ (b1 b2 : Box α), b1.dom = b2.dom → b1.cod = b2.cod →
       (∀ vals, ∃ a : α, b1.function vals = .ok (.tup [.atom a]) ∧
                b2.function vals = .ok (.atom a)) →
       ∀ vals, b1.toDiagram.call vals = b2.toDiagram.call vals) := by
  have htup : ∀ u, Except.map tuplify (f1.call u) = Except.map tuplify (f2.call u) := by
    intro u
    obtain ⟨a, e1, e2⟩ := hpair u
    simp only [Function.call, hdom]
    by_cases hu : u.length = f2.dom <;> simp [hu, e1, e2, Except.map, tuplify]
  refine ⟨fun a => rfl, ?_, fun v => rfl, ?_, ?_⟩
  · intro xs hxs
    match xs, hxs with
    | [], _ => rfl
    | [v], h => exact absurd rfl h
    | v1 :: v2 :: t, _ => rfl
  · intro g vals
    exact ⟨thenF_congr_left f1 f2 g hdom htup vals,
      tensorF_congr_left f1 f2 g hdom htup vals,
      tensorF_congr_right g f1 f2 hdom htup vals⟩
  · intro b1 b2 hbd hbc hbpair vals
    have harm := armStd_tupEq b1 b2 hbd hbpair
    have estep1 : b1.toDiagram.call vals =
        ((Function.id b1.dom).thenF
          (layerF (fun n => n) armStd b1.dom b1 0)).call vals := rfl
    have estep2 : b2.toDiagram.call vals =
        ((Function.id b2.dom).thenF
          (layerF (fun n => n) armStd b2.dom b2 0)).call vals := rfl
    rw [estep1, estep2, hbd]
    apply thenF_congr_right_call
    intro u
    show (((Function.id 0).tensorF (armStd b1)).tensorF
        (Function.id (b2.dom - 0 - b1.dom))).call u
      = (((Function.id 0).tensorF (armStd b2)).tensorF
        (Function.id (b2.dom - 0 - b2.dom))).call u
    rw [hbd]
    apply tensorF_congr_left_call
    · show 0 + (armStd b1).dom = 0 + (armStd b2).dom
      simp [armStd, hbd]
    · exact tensorF_congr_right (Function.id 0) (armStd b1) (armStd b2)
        (by simp [armStd, hbd]) harm

/-- Witness for C10: the paired boxes `x ↦ (x,)` and `x ↦ x` on naturals. -/
theorem tuplify_untuplify_roundtrip_witness :
    untuplify (tuplify (.atom 7)) = (.atom 7 : PyVal ℕ) ∧
    untuplify ([] : List (PyVal ℕ)) = .tup [] ∧
    ((⟨1, 1, fun _ => .ok (.tup [.atom 0])⟩ : Function ℕ).thenF (Function.id 1)).call
        [.atom 3]
      = ((⟨1, 1, fun _ => .ok (.atom 0)⟩ : Function ℕ).thenF (Function.id 1)).call
        [.atom 3] := by
  obtain ⟨p1, p2, -, p4, -⟩ := tuplify_untuplify_roundtrip
    (⟨1, 1, fun _ => .ok (.tup [.atom 0])⟩ : Function ℕ)
    (⟨1, 1, fun _ => .ok (.atom 0)⟩ : Function ℕ)
    rfl rfl (fun vals => ⟨0, rfl, rfl⟩)
  exact ⟨p1 7, p2 [] (by decide), (p4 (Function.id 1) [.atom 3]).1⟩

end Cartesian

namespace Cartesian

theorem map_const_range {γ : Type} (c : γ) (R : ℕ) :
    (List.range R).map (fun _ => c) = List.replicate R c := by
  induction R with
  | zero => rfl
  | succ R ih =>
    rw [List.range_succ, List.map_append, ih]
    simp [List.replicate_succ']

theorem flatten_const_replicate {γ : Type} (c : γ) (R : ℕ) : ∀ L : ℕ,
    (((List.range L).map (fun _ => (List.range R).map (fun _ => c))).flatten)
      = List.replicate (L * R) c := by
  intro L
  induction L with
  | zero => simp
  | succ L ih =>
    rw [List.range_succ, List.map_append, List.flatten_append, ih]
    simp only [List.map_cons, List.map_nil, List.flatten_cons, List.flatten_nil,
      List.append_nil]
    rw [map_const_range, Nat.succ_mul, List.replicate_add]

theorem flatten_map_range_getElem {γ : Type} :
    ∀ (L : ℕ) (f : ℕ → ℕ → γ) (R a b : ℕ), a < L → b < R →
    ((((List.range L).map (fun x => (List.range R).map (f x))).flatten))[a * R + b]?
      = some (f a b) := by
  intro L
  induction L with
  | zero => intro f R a b ha; omega
  | succ L ih =>
    intro f R a b ha hb
    rw [List.range_succ_eq_map]
    simp only [List.map_cons, List.map_map, List.flatten_cons]
    cases a with
    | zero =>
      rw [List.getElem?_append_left (by simpa using hb)]
      simp only [zero_mul, zero_add, List.getElem?_map]
      rw [List.getElem?_range hb]
      rfl
    | succ a =>
      rw [List.getElem?_append_right (by simp; nlinarith)]
      have hidx : (a + 1) * R + b - ((List.range R).map (f 0)).length = a * R + b := by
        simp; ring_nf; omega
      rw [hidx]
      exact ih (fun x => f (x + 1)) R a b (by omega) hb

/-- C2 counterexample: in `Swap(1, 2)` the box for pair `(i, j) = (0, 1)`
sits at list position `0 * 2 + 1`; its offset is `1`, not
`left + i - 1 - j = 1 + 0 - 1 - 1 = -1` as the claim's formula states. -/
theorem swap_offset_formula_counterexample :
    ¬ ((SwapD 1 2 : Diagram ℕ).offsets[0 * 2 + 1]?
        = some ((1 : ℤ) + (0 : ℤ) - 1 - (1 : ℤ))) := by decide

/-- C2 (amended): `Swap(left, right)` has domain arity `left + right`,
codomain arity `right + left` and exactly `left * right` elementary swap
boxes; the offset of the box for pair `(i, j)` (`i`-th of `left` outer,
`j`-th of `right` inner) is `left + j - 1 - i` — the source's offsets
comprehension runs `j` over `range(left)` and `i` over `range(right)`, so
the roles of `i` and `j` in the formula are exchanged relative to the boxes
comprehension. -/
theorem swap_construction {α : Type} (left right i j : ℕ)
    (hi : i < left) (hj : j < right) :
    (SwapD left right : Diagram α).dom = left + right ∧
    (SwapD left right : Diagram α).cod = right + left ∧
    (SwapD left right : Diagram α).boxes = List.replicate (left * right) SWAPbox ∧
    (SwapD left right : Diagram α).offsets[i * right + j]?
      = some ((left : ℤ) + (j : ℤ) - 1 - (i : ℤ)) := by
  refine ⟨rfl, rfl, flatten_const_replicate SWAPbox right left, ?_⟩
  have h := flatten_map_range_getElem left
    (fun x y => (left : ℤ) + (y : ℤ) - 1 - (x : ℤ)) right i j hi hj
  simpa only [SwapD] using h

/-- Witness for C2: `Swap(2, 3)`, pair `(1, 1)` at offset `2 + 1 - 1 - 1 = 1`. -/
theorem swap_construction_witness :
    (SwapD 2 3 : Diagram ℕ).dom = 5 ∧
    (SwapD 2 3 : Diagram ℕ).cod = 5 ∧
    (SwapD 2 3 : Diagram ℕ).boxes = List.replicate 6 SWAPbox ∧
    (SwapD 2 3 : Diagram ℕ).offsets[1 * 3 + 1]? = some 1 := by
  have h := @swap_construction ℕ 2 3 1 1 (by decide) (by decide)
  refine ⟨h.1, h.2.1, h.2.2.1, ?_⟩
  rw [h.2.2.2]
  norm_num

/-- C1 counterexample: for the implicit evaluation functor `F` (identity
object map, each box sent to its own function) and the composable diagrams
`d1 = d2 = Id(1)`, the input tuple `((0, 1),)` of length `1 = dom` has
`F(d1 >> d2)` return the tuple unchanged while `F(d1) >> F(d2)` raises an
arity mismatch: the intermediate `untuplify`/`tuplify` round trip splats the
single tuple-valued wire into two arguments. -/
theorem functor_composition_counterexample :
    ((IdD 1 : Diagram ℕ).thenD (IdD 1) = .ok ((IdD 1).compD (IdD 1))) ∧
    ((applyFunctor (fun n => n) armStd (IdD 1 : Diagram ℕ)).thenE
        (applyFunctor (fun n => n) armStd (IdD 1))
      = .ok ((applyFunctor (fun n => n) armStd (IdD 1)).thenF
          (applyFunctor (fun n => n) armStd (IdD 1)))) ∧
    (applyFunctor (fun n => n) armStd ((IdD 1 : Diagram ℕ).compD (IdD 1))).call
        [.tup [.atom 0, .atom 1]] = .ok (.tup [.atom 0, .atom 1]) ∧
    ((applyFunctor (fun n => n) armStd (IdD 1 : Diagram ℕ)).thenF
        (applyFunctor (fun n => n) armStd (IdD 1))).call
        [.tup [.atom 0, .atom 1]] = .error .axiomError :=
  ⟨rfl, rfl, rfl, rfl⟩

end Cartesian

namespace Cartesian

theorem obm_zero (obm : ℕ → ℕ) (hadd : ∀ a b, obm (a + b) = obm a + obm b) :
    obm 0 = 0 := by
  have h := hadd 0 0
  simp only [Nat.add_zero] at h
  omega

theorem obm_sub (obm : ℕ → ℕ) (hadd : ∀ a b, obm (a + b) = obm a + obm b)
    {a b : ℕ} (h : a ≤ b) : obm (b - a) = obm b - obm a := by
  have h2 := hadd a (b - a)
  rw [Nat.add_sub_cancel' h] at h2
  omega

theorem obm_mono (obm : ℕ → ℕ) (hadd : ∀ a b, obm (a + b) = obm a + obm b)
    {a b : ℕ} (h : a ≤ b) : obm a ≤ obm b := by
  have h2 := hadd a (b - a)
  rw [Nat.add_sub_cancel' h] at h2
  omega

theorem widthsOk_cons {α : Type} (w : ℕ) (b : Box α) (o : ℤ)
    (rest : List (Box α × ℤ)) :
    widthsOk w ((b, o) :: rest) =
      (0 ≤ o ∧ o.toNat + b.dom ≤ w ∧ widthsOk (w - b.dom + b.cod) rest) := rfl

theorem layerF_call_spec {α : Type} (obm : ℕ → ℕ) (arm : Box α → Function α)
    (hadd : ∀ a b, obm (a + b) = obm a + obm b)
    (b : Box α) (o : ℤ) (w : ℕ) (s : List (PyVal α))
    (hbd : (arm b).dom = obm b.dom) (hbc : (arm b).cod = obm b.cod)
    (hbg : GoodArrow (arm b))
    (hwf : o.toNat + b.dom ≤ w)
    (hflat : IsFlat s) (hlen : s.length = obm w) :
    ∃ r, (arm b).call ((s.drop (obm o.toNat)).take (arm b).dom) = .ok r ∧
      IsFlat (tuplify r) ∧ (tuplify r).length = obm b.cod ∧
      (layerF obm arm w b o).call s =
        .ok (untuplify (s.take (obm o.toNat) ++ tuplify r ++
          s.drop (obm o.toNat + (arm b).dom))) := by
  have hple : obm o.toNat + obm b.dom ≤ obm w := by
    have h2 := obm_mono obm hadd hwf
    rw [hadd] at h2
    exact h2
  have hq : obm o.toNat + obm b.dom + obm (w - o.toNat - b.dom) = obm w := by
    have harith : o.toNat + b.dom + (w - o.toNat - b.dom) = w := by omega
    have h2 := congrArg obm harith
    rw [hadd, hadd] at h2
    exact h2
  have hmidlen : ((s.drop (obm o.toNat)).take (arm b).dom).length = (arm b).dom := by
    rw [hbd]
    simp only [List.length_take, List.length_drop, hlen]
    omega
  have hmidflat : IsFlat ((s.drop (obm o.toNat)).take (arm b).dom) :=
    isFlat_take (isFlat_drop hflat (obm o.toNat)) _
  obtain ⟨r, hr, hrflat, hrlen⟩ := hbg _ hmidflat hmidlen
  have hcall : (arm b).call ((s.drop (obm o.toNat)).take (arm b).dom) = .ok r := by
    rw [Function.call, if_pos hmidlen, hr]
  refine ⟨r, hcall, hrflat, by rw [hrlen, hbc], ?_⟩
  have htk : (s.take (obm o.toNat + (arm b).dom)).length = obm o.toNat + (arm b).dom := by
    simp only [List.length_take, hlen]
    rw [hbd]
    omega
  have htt : (s.take (obm o.toNat + (arm b).dom)).take (obm o.toNat) = s.take (obm o.toNat) := by
    rw [List.take_take]
    congr 1
    omega
  have hdt : (s.take (obm o.toNat + (arm b).dom)).drop (obm o.toNat)
      = (s.drop (obm o.toNat)).take (arm b).dom := by
    rw [List.drop_take]
    congr 1
    omega
  have hidp : (Function.id (obm o.toNat) : Function α).call (s.take (obm o.toNat))
      = .ok (untuplify (s.take (obm o.toNat))) := by
    rw [Function.call, if_pos]
    · rfl
    · simp only [List.length_take, hlen, Function.id]
      omega
  have hidq : (Function.id (obm (w - o.toNat - b.dom)) : Function α).call
        (s.drop (obm o.toNat + (arm b).dom))
      = .ok (untuplify (s.drop (obm o.toNat + (arm b).dom))) := by
    rw [Function.call, if_pos]
    · rfl
    · simp only [List.length_drop, hlen, Function.id, hbd]
      omega
  have hA : ((Function.id (obm o.toNat)).tensorF (arm b)).call
        (s.take (obm o.toNat + (arm b).dom))
      = .ok (untuplify (s.take (obm o.toNat) ++ tuplify r)) := by
    have eA : ((Function.id (obm o.toNat)).tensorF (arm b)).call
          (s.take (obm o.toNat + (arm b).dom)) =
        if (s.take (obm o.toNat + (arm b).dom)).length = obm o.toNat + (arm b).dom then
          (match (Function.id (obm o.toNat) : Function α).call
              ((s.take (obm o.toNat + (arm b).dom)).take (obm o.toNat)) with
           | .error e => .error e
           | .ok r0 =>
             match (arm b).call ((s.take (obm o.toNat + (arm b).dom)).drop (obm o.toNat)) with
             | .error e => .error e
             | .ok r1 => .ok (untuplify (tuplify r0 ++ tuplify r1)))
        else .error .axiomError := rfl
    rw [eA, if_pos htk, htt, hidp, hdt, hcall]
    show Except.ok (untuplify (tuplify (untuplify (s.take (obm o.toNat))) ++ tuplify r)) = _
    rw [tuplify_untuplify_flat _ (isFlat_take hflat _)]
  have e1 : (layerF obm arm w b o).call s =
      if s.length = (obm o.toNat + (arm b).dom) + obm (w - o.toNat - b.dom) then
        (match ((Function.id (obm o.toNat)).tensorF (arm b)).call
            (s.take (obm o.toNat + (arm b).dom)) with
         | .error e => .error e
         | .ok r0 =>
           match (Function.id (obm (w - o.toNat - b.dom)) : Function α).call
               (s.drop (obm o.toNat + (arm b).dom)) with
           | .error e => .error e
           | .ok r1 => .ok (untuplify (tuplify r0 ++ tuplify r1)))
      else .error .axiomError := rfl
  rw [e1, if_pos (by rw [hlen, hbd]; omega), hA, hidq]
  show Except.ok (untuplify (tuplify (untuplify (s.take (obm o.toNat) ++ tuplify r)) ++
      tuplify (untuplify (s.drop (obm o.toNat + (arm b).dom))))) = _
  rw [tuplify_untuplify_flat _ (isFlat_append (isFlat_take hflat _) hrflat),
    tuplify_untuplify_flat _ (isFlat_drop hflat _)]

theorem applyFunctorGo_spec {α : Type} (obm : ℕ → ℕ) (arm : Box α → Function α)
    (hadd : ∀ a b, obm (a + b) = obm a + obm b) :
    ∀ (bs : List (Box α × ℤ)) (w : ℕ) (s xs : List (PyVal α)) (acc : Function α),
    (∀ p ∈ bs, (arm p.1).dom = obm p.1.dom ∧ (arm p.1).cod = obm p.1.cod ∧
       GoodArrow (arm p.1)) →
    widthsOk w bs → IsFlat s → s.length = obm w →
    acc.call xs = .ok (untuplify s) →
    ∃ s2, evalBoxes obm arm bs s = .ok s2 ∧ IsFlat s2 ∧
      s2.length = obm (finalWidth w bs) ∧
      (applyFunctorGo obm arm bs acc w).call xs = .ok (untuplify s2) := by
  intro bs
  induction bs with
  | nil =>
    intro w s xs acc hb hw hf hl hacc
    exact ⟨s, rfl, hf, hl, hacc⟩
  | cons q rest ih =>
    obtain ⟨b, o⟩ := q
    intro w s xs acc hb hw hf hl hacc
    rw [widthsOk_cons] at hw
    obtain ⟨hbo, hwf, hwrest⟩ := hw
    obtain ⟨hbd, hbc, hbg⟩ := hb (b, o) (List.mem_cons_self _ _)
    obtain ⟨r, hr, hrflat, hrlen, hlayer⟩ :=
      layerF_call_spec obm arm hadd b o w s hbd hbc hbg hwf hf hl
    have hple : obm o.toNat + obm b.dom ≤ obm w := by
      have h2 := obm_mono obm hadd hwf
      rw [hadd] at h2
      exact h2
    have hflat2 : IsFlat (s.take (obm o.toNat) ++ tuplify r ++
        s.drop (obm o.toNat + (arm b).dom)) :=
      isFlat_append (isFlat_append (isFlat_take hf _) hrflat) (isFlat_drop hf _)
    have hlen2 : (s.take (obm o.toNat) ++ tuplify r ++
        s.drop (obm o.toNat + (arm b).dom)).length = obm (w - b.dom + b.cod) := by
      have hbw : b.dom ≤ w := le_trans (Nat.le_add_left _ _) hwf
      have hsub := obm_sub obm hadd hbw
      simp only [List.length_append, List.length_take, List.length_drop, hrlen,
        hl, hbd, hadd, hsub]
      omega
    have hacc2 : (acc.thenF (layerF obm arm w b o)).call xs =
        .ok (untuplify (s.take (obm o.toNat) ++ tuplify r ++
          s.drop (obm o.toNat + (arm b).dom))) := by
      have hxl : xs.length = acc.dom := call_ok_length hacc
      have e : (acc.thenF (layerF obm arm w b o)).call xs =
          if xs.length = acc.dom then
            (match acc.call xs with
             | .ok r0 => (layerF obm arm w b o).call (tuplify r0)
             | .error e => .error e)
          else .error .axiomError := rfl
      rw [e, if_pos hxl, hacc]
      show (layerF obm arm w b o).call (tuplify (untuplify s)) = _
      rw [tuplify_untuplify_flat s hf, hlayer]
    obtain ⟨s3, he3, hf3, hl3, hgo3⟩ := ih (w - b.dom + b.cod)
      (s.take (obm o.toNat) ++ tuplify r ++ s.drop (obm o.toNat + (arm b).dom))
      xs (acc.thenF (layerF obm arm w b o))
      (fun q hq => hb q (List.mem_cons_of_mem _ hq)) hwrest hflat2 hlen2 hacc2
    refine ⟨s3, ?_, hf3, hl3, hgo3⟩
    show (match (arm b).call ((s.drop (obm o.toNat)).take (arm b).dom) with
      | Except.error e => Except.error e
      | Except.ok r => evalBoxes obm arm rest
          (s.take (obm o.toNat) ++ tuplify r ++ s.drop (obm o.toNat + (arm b).dom)))
      = Except.ok s3
    rw [hr]
    exact he3

theorem applyFunctor_spec {α : Type} (obm : ℕ → ℕ) (arm : Box α → Function α)
    (hadd : ∀ a b, obm (a + b) = obm a + obm b) (d : Diagram α)
    (hb : ∀ p ∈ d.boxes.zip d.offsets, (arm p.1).dom = obm p.1.dom ∧
       (arm p.1).cod = obm p.1.cod ∧ GoodArrow (arm p.1))
    (hw : widthsOk d.dom (d.boxes.zip d.offsets))
    (xs : List (PyVal α)) (hf : IsFlat xs) (hl : xs.length = obm d.dom) :
    ∃ s2, evalBoxes obm arm (d.boxes.zip d.offsets) xs = .ok s2 ∧ IsFlat s2 ∧
      s2.length = obm (finalWidth d.dom (d.boxes.zip d.offsets)) ∧
      (applyFunctor obm arm d).call xs = .ok (untuplify s2) := by
  apply applyFunctorGo_spec obm arm hadd _ _ xs xs _ hb hw hf hl
  rw [Function.call, if_pos]
  · rfl
  · exact hl

theorem applyFunctorGo_dom {α : Type} (obm : ℕ → ℕ) (arm : Box α → Function α) :
    ∀ (bs : List (Box α × ℤ)) (acc : Function α) (w : ℕ),
    (applyFunctorGo obm arm bs acc w).dom = acc.dom := by
  intro bs
  induction bs with
  | nil => intro acc w; rfl
  | cons q rest ih =>
    obtain ⟨b, o⟩ := q
    intro acc w
    exact ih _ _

theorem applyFunctorGo_cod {α : Type} (obm : ℕ → ℕ) (arm : Box α → Function α)
    (hadd : ∀ a b, obm (a + b) = obm a + obm b) :
    ∀ (bs : List (Box α × ℤ)) (acc : Function α) (w : ℕ),
    (∀ p ∈ bs, (arm p.1).cod = obm p.1.cod) →
    widthsOk w bs → acc.cod = obm w →
    (applyFunctorGo obm arm bs acc w).cod = obm (finalWidth w bs) := by
  intro bs
  induction bs with
  | nil => intro acc w _ _ hc; exact hc
  | cons q rest ih =>
    obtain ⟨b, o⟩ := q
    intro acc w hb hw hc
    rw [widthsOk_cons] at hw
    obtain ⟨hbo, hwf, hwrest⟩ := hw
    apply ih _ _ (fun p hp => hb p (List.mem_cons_of_mem _ hp)) hwrest
    show (obm o.toNat + (arm b).cod) + obm (w - o.toNat - b.dom) = obm (w - b.dom + b.cod)
    have hbc : (arm b).cod = obm b.cod := hb (b, o) (List.mem_cons_self _ _)
    rw [hbc]
    have hpq : obm o.toNat + obm (w - o.toNat - b.dom) = obm (w - b.dom) := by
      have harith : o.toNat + (w - o.toNat - b.dom) = w - b.dom := by omega
      have h2 := congrArg obm harith
      rw [hadd] at h2
      exact h2
    have h3 := hadd (w - b.dom) b.cod
    omega

theorem evalBoxes_append {α : Type} (obm : ℕ → ℕ) (arm : Box α → Function α) :
    ∀ (l1 l2 : List (Box α × ℤ)) (s s1 : List (PyVal α)),
    evalBoxes obm arm l1 s = .ok s1 →
    evalBoxes obm arm (l1 ++ l2) s = evalBoxes obm arm l2 s1 := by
  intro l1
  induction l1 with
  | nil =>
    intro l2 s s1 h
    have hs : s = s1 := by
      have : Except.ok (ε := PyErr) s = .ok s1 := h
      injection this
    subst hs
    rfl
  | cons q rest ih =>
    obtain ⟨b, o⟩ := q
    intro l2 s s1 h
    have hstep : ∀ t : List (Box α × ℤ),
        evalBoxes obm arm ((b, o) :: t) s =
        (match (arm b).call ((s.drop (obm o.toNat)).take (arm b).dom) with
         | .error e => .error e
         | .ok r => evalBoxes obm arm t
             (s.take (obm o.toNat) ++ tuplify r ++
               s.drop (obm o.toNat + (arm b).dom))) := fun t => rfl
    rw [hstep rest] at h
    rw [List.cons_append, hstep (rest ++ l2)]
    cases hc : (arm b).call ((s.drop (obm o.toNat)).take (arm b).dom)
    · rw [hc] at h
      simp at h
    · rw [hc] at h
      exact ih l2 _ s1 h

end Cartesian

namespace Cartesian

theorem finalWidth_append {α : Type} :
    ∀ (l1 l2 : List (Box α × ℤ)) (w : ℕ),
    finalWidth w (l1 ++ l2) = finalWidth (finalWidth w l1) l2 := by
  intro l1
  induction l1 with
  | nil => intro l2 w; rfl
  | cons q rest ih =>
    obtain ⟨b, o⟩ := q
    intro l2 w
    exact ih l2 _

theorem widthsOk_append {α : Type} :
    ∀ (l1 l2 : List (Box α × ℤ)) (w : ℕ),
    widthsOk w l1 → widthsOk (finalWidth w l1) l2 → widthsOk w (l1 ++ l2) := by
  intro l1
  induction l1 with
  | nil => intro l2 w _ h2; exact h2
  | cons q rest ih =>
    obtain ⟨b, o⟩ := q
    intro l2 w h1 h2
    rw [widthsOk_cons] at h1
    obtain ⟨ho, hle, hrest⟩ := h1
    rw [List.cons_append, widthsOk_cons]
    exact ⟨ho, hle, ih l2 _ hrest h2⟩

theorem widthsOk_extend {α : Type} :
    ∀ (l : List (Box α × ℤ)) (w e : ℕ), widthsOk w l → widthsOk (w + e) l := by
  intro l
  induction l with
  | nil => intro w e _; trivial
  | cons q rest ih =>
    obtain ⟨b, o⟩ := q
    intro w e h
    rw [widthsOk_cons] at h
    obtain ⟨ho, hle, hrest⟩ := h
    rw [widthsOk_cons]
    refine ⟨ho, by omega, ?_⟩
    have h3 := ih (w - b.dom + b.cod) e hrest
    have harith : w + e - b.dom + b.cod = w - b.dom + b.cod + e := by omega
    rw [harith]
    exact h3

theorem finalWidth_extend {α : Type} :
    ∀ (l : List (Box α × ℤ)) (w e : ℕ), widthsOk w l →
    finalWidth (w + e) l = finalWidth w l + e := by
  intro l
  induction l with
  | nil => intro w e _; rfl
  | cons q rest ih =>
    obtain ⟨b, o⟩ := q
    intro w e h
    rw [widthsOk_cons] at h
    obtain ⟨ho, hle, hrest⟩ := h
    show finalWidth (w + e - b.dom + b.cod) rest = finalWidth (w - b.dom + b.cod) rest + e
    have harith : w + e - b.dom + b.cod = w - b.dom + b.cod + e := by omega
    rw [harith]
    exact ih _ e hrest

theorem shiftZ_cons {α : Type} (c : ℕ) (b : Box α) (o : ℤ) (rest : List (Box α × ℤ)) :
    shiftZ c ((b, o) :: rest) = (b, o + (c : ℤ)) :: shiftZ c rest := rfl

theorem widthsOk_shift {α : Type} :
    ∀ (l : List (Box α × ℤ)) (w c : ℕ), widthsOk w l → widthsOk (c + w) (shiftZ c l) := by
  intro l
  induction l with
  | nil => intro w c _; trivial
  | cons q rest ih =>
    obtain ⟨b, o⟩ := q
    intro w c h
    rw [widthsOk_cons] at h
    obtain ⟨ho, hle, hrest⟩ := h
    rw [shiftZ_cons, widthsOk_cons]
    have htn : ((o + (c : ℤ))).toNat = o.toNat + c := by
      rw [Int.toNat_add ho (Int.natCast_nonneg c), Int.toNat_natCast]
    refine ⟨by omega, by rw [htn]; omega, ?_⟩
    have h3 := ih (w - b.dom + b.cod) c hrest
    have harith : c + w - b.dom + b.cod = c + (w - b.dom + b.cod) := by omega
    rw [harith]
    exact h3

theorem finalWidth_shift {α : Type} :
    ∀ (l : List (Box α × ℤ)) (w c : ℕ), widthsOk w l →
    finalWidth (c + w) (shiftZ c l) = c + finalWidth w l := by
  intro l
  induction l with
  | nil => intro w c _; rfl
  | cons q rest ih =>
    obtain ⟨b, o⟩ := q
    intro w c h
    rw [widthsOk_cons] at h
    obtain ⟨ho, hle, hrest⟩ := h
    rw [shiftZ_cons]
    show finalWidth (c + w - b.dom + b.cod) (shiftZ c rest)
      = c + finalWidth (w - b.dom + b.cod) rest
    have harith : c + w - b.dom + b.cod = c + (w - b.dom + b.cod) := by omega
    rw [harith]
    exact ih _ c hrest

theorem zip_map_snd {α : Type} (f : ℤ → ℤ) :
    ∀ (bs : List (Box α)) (os : List ℤ),
    bs.zip (os.map f) = (bs.zip os).map (fun p => (p.1, f p.2)) := by
  intro bs
  induction bs with
  | nil => intro os; rfl
  | cons b rest ih =>
    intro os
    cases os with
    | nil => rfl
    | cons o ot => simp [List.zip_cons_cons, ih ot]

theorem compD_zip {α : Type} (d e : Diagram α)
    (hlen : d.boxes.length = d.offsets.length) :
    (d.compD e).boxes.zip (d.compD e).offsets =
      d.boxes.zip d.offsets ++ e.boxes.zip e.offsets := by
  show (d.boxes ++ e.boxes).zip (d.offsets ++ e.offsets) = _
  exact List.zip_append hlen

theorem tensorD_zip {α : Type} (d e : Diagram α)
    (hlen : d.boxes.length = d.offsets.length) :
    (d.tensorD e).boxes.zip (d.tensorD e).offsets =
      d.boxes.zip d.offsets ++ shiftZ d.cod (e.boxes.zip e.offsets) := by
  show (d.boxes ++ e.boxes).zip
      (d.offsets ++ e.offsets.map (fun o => o + (d.cod : ℤ))) = _
  rw [List.zip_append hlen, zip_map_snd]
  rfl

theorem evalBoxes_left {α : Type} (obm : ℕ → ℕ) (arm : Box α → Function α)
    (hadd : ∀ a b, obm (a + b) = obm a + obm b) :
    ∀ (bs : List (Box α × ℤ)) (w : ℕ) (s1 s2 t : List (PyVal α)),
    (∀ p ∈ bs, (arm p.1).dom = obm p.1.dom ∧ (arm p.1).cod = obm p.1.cod ∧
       GoodArrow (arm p.1)) →
    widthsOk w bs → IsFlat s1 → s1.length = obm w →
    evalBoxes obm arm bs s1 = .ok t →
    evalBoxes obm arm bs (s1 ++ s2) = .ok (t ++ s2) := by
  intro bs
  induction bs with
  | nil =>
    intro w s1 s2 t _ _ _ _ h
    have hs : s1 = t := by
      have hinj : Except.ok (ε := PyErr) s1 = .ok t := h
      injection hinj
    subst hs
    rfl
  | cons q rest ih =>
    obtain ⟨b, o⟩ := q
    intro w s1 s2 t hb hw hf hl h
    rw [widthsOk_cons] at hw
    obtain ⟨ho, hle, hwrest⟩ := hw
    obtain ⟨hbd0, hbc0, hbg0⟩ := hb (b, o) (List.mem_cons_self _ _)
    have hbd : (arm b).dom = obm b.dom := hbd0
    have hbc : (arm b).cod = obm b.cod := hbc0
    have hbg : GoodArrow (arm b) := hbg0
    have hple : obm o.toNat + obm b.dom ≤ obm w := by
      have h2 := obm_mono obm hadd hle
      rw [hadd] at h2
      exact h2
    have hmidlen : ((s1.drop (obm o.toNat)).take (arm b).dom).length = (arm b).dom := by
      rw [hbd]
      simp only [List.length_take, List.length_drop, hl]
      omega
    have hmidflat : IsFlat ((s1.drop (obm o.toNat)).take (arm b).dom) :=
      isFlat_take (isFlat_drop hf (obm o.toNat)) _
    obtain ⟨r, hr, hrflat, hrlen⟩ := hbg _ hmidflat hmidlen
    have hcall : (arm b).call ((s1.drop (obm o.toNat)).take (arm b).dom) = .ok r := by
      rw [Function.call, if_pos hmidlen, hr]
    have hstep : ∀ (u : List (PyVal α)),
        evalBoxes obm arm ((b, o) :: rest) u =
        (match (arm b).call ((u.drop (obm o.toNat)).take (arm b).dom) with
         | Except.error e => Except.error e
         | Except.ok r => evalBoxes obm arm rest
             (u.take (obm o.toNat) ++ tuplify r ++
               u.drop (obm o.toNat + (arm b).dom))) := fun u => rfl
    rw [hstep, hcall] at h
    have hdrop12 : (s1 ++ s2).drop (obm o.toNat) = s1.drop (obm o.toNat) ++ s2 :=
      List.drop_append_of_le_length (by omega)
    have hmid12 : ((s1 ++ s2).drop (obm o.toNat)).take (arm b).dom
        = (s1.drop (obm o.toNat)).take (arm b).dom := by
      rw [hdrop12]
      refine List.take_append_of_le_length ?_
      simp only [List.length_drop, hl]
      rw [hbd]
      omega
    have htake12 : (s1 ++ s2).take (obm o.toNat) = s1.take (obm o.toNat) :=
      List.take_append_of_le_length (by omega)
    have hdrop12b : (s1 ++ s2).drop (obm o.toNat + (arm b).dom)
        = s1.drop (obm o.toNat + (arm b).dom) ++ s2 :=
      List.drop_append_of_le_length (by rw [hbd]; omega)
    rw [hstep, hmid12, hcall]
    show evalBoxes obm arm rest
        ((s1 ++ s2).take (obm o.toNat) ++ tuplify r ++
          (s1 ++ s2).drop (obm o.toNat + (arm b).dom)) = .ok (t ++ s2)
    rw [htake12, hdrop12b]
    have hassoc : s1.take (obm o.toNat) ++ tuplify r ++
        (s1.drop (obm o.toNat + (arm b).dom) ++ s2)
        = (s1.take (obm o.toNat) ++ tuplify r ++
            s1.drop (obm o.toNat + (arm b).dom)) ++ s2 := by
      simp [List.append_assoc]
    rw [hassoc]
    have hbw : b.dom ≤ w := le_trans (Nat.le_add_left _ _) hle
    have hsub := obm_sub obm hadd hbw
    apply ih (w - b.dom + b.cod) _ s2 t
      (fun p hp => hb p (List.mem_cons_of_mem _ hp)) hwrest
      (isFlat_append (isFlat_append (isFlat_take hf _) hrflat) (isFlat_drop hf _))
      (by
        simp only [List.length_append, List.length_take, List.length_drop, hrlen,
          hl, hbd, hbc, hadd, hsub]
        omega)
      h

theorem evalBoxes_right {α : Type} (obm : ℕ → ℕ) (arm : Box α → Function α)
    (hadd : ∀ a b, obm (a + b) = obm a + obm b) (c : ℕ) :
    ∀ (bs : List (Box α × ℤ)) (w : ℕ) (s2 t u : List (PyVal α)),
    (∀ p ∈ bs, (arm p.1).dom = obm p.1.dom ∧ (arm p.1).cod = obm p.1.cod ∧
       GoodArrow (arm p.1)) →
    widthsOk w bs → IsFlat s2 → s2.length = obm w →
    t.length = obm c →
    evalBoxes obm arm bs s2 = .ok u →
    evalBoxes obm arm (shiftZ c bs) (t ++ s2) = .ok (t ++ u) := by
  intro bs
  induction bs with
  | nil =>
    intro w s2 t u _ _ _ _ _ h
    have hs : s2 = u := by
      have hinj : Except.ok (ε := PyErr) s2 = .ok u := h
      injection hinj
    subst hs
    rfl
  | cons q rest ih =>
    obtain ⟨b, o⟩ := q
    intro w s2 t u hb hw hf hl htl h
    rw [widthsOk_cons] at hw
    obtain ⟨ho, hle, hwrest⟩ := hw
    obtain ⟨hbd0, hbc0, hbg0⟩ := hb (b, o) (List.mem_cons_self _ _)
    have hbd : (arm b).dom = obm b.dom := hbd0
    have hbc : (arm b).cod = obm b.cod := hbc0
    have hbg : GoodArrow (arm b) := hbg0
    have hple : obm o.toNat + obm b.dom ≤ obm w := by
      have h2 := obm_mono obm hadd hle
      rw [hadd] at h2
      exact h2
    have hmidlen : ((s2.drop (obm o.toNat)).take (arm b).dom).length = (arm b).dom := by
      rw [hbd]
      simp only [List.length_take, List.length_drop, hl]
      omega
    have hmidflat : IsFlat ((s2.drop (obm o.toNat)).take (arm b).dom) :=
      isFlat_take (isFlat_drop hf (obm o.toNat)) _
    obtain ⟨r, hr, hrflat, hrlen⟩ := hbg _ hmidflat hmidlen
    have hcall : (arm b).call ((s2.drop (obm o.toNat)).take (arm b).dom) = .ok r := by
      rw [Function.call, if_pos hmidlen, hr]
    have hstep : ∀ (b' : Box α) (o' : ℤ) (rest' : List (Box α × ℤ)) (v : List (PyVal α)),
        evalBoxes obm arm ((b', o') :: rest') v =
        (match (arm b').call ((v.drop (obm o'.toNat)).take (arm b').dom) with
         | Except.error e => Except.error e
         | Except.ok r => evalBoxes obm arm rest'
             (v.take (obm o'.toNat) ++ tuplify r ++
               v.drop (obm o'.toNat + (arm b').dom))) := fun b' o' rest' v => rfl
    rw [hstep, hcall] at h
    rw [shiftZ_cons, hstep]
    have htn : ((o + (c : ℤ))).toNat = o.toNat + c := by
      rw [Int.toNat_add ho (Int.natCast_nonneg c), Int.toNat_natCast]
    have hpos : obm ((o + (c : ℤ)).toNat) = t.length + obm o.toNat := by
      rw [htn]
      have h2 := hadd o.toNat c
      omega
    have hdropm : ((t ++ s2).drop (obm ((o + (c : ℤ)).toNat))).take (arm b).dom
        = (s2.drop (obm o.toNat)).take (arm b).dom := by
      rw [hpos, List.drop_append]
    rw [hdropm, hcall]
    show evalBoxes obm arm (shiftZ c rest)
        ((t ++ s2).take (obm ((o + (c : ℤ)).toNat)) ++ tuplify r ++
          (t ++ s2).drop (obm ((o + (c : ℤ)).toNat) + (arm b).dom)) = .ok (t ++ u)
    have htakem : (t ++ s2).take (obm ((o + (c : ℤ)).toNat))
        = t ++ s2.take (obm o.toNat) := by
      rw [hpos, List.take_append]
    have hdropb : (t ++ s2).drop (obm ((o + (c : ℤ)).toNat) + (arm b).dom)
        = s2.drop (obm o.toNat + (arm b).dom) := by
      rw [hpos]
      have harith : t.length + obm o.toNat + (arm b).dom
          = t.length + (obm o.toNat + (arm b).dom) := by omega
      rw [harith, List.drop_append]
    rw [htakem, hdropb]
    have hassoc : t ++ s2.take (obm o.toNat) ++ tuplify r ++
        s2.drop (obm o.toNat + (arm b).dom)
        = t ++ (s2.take (obm o.toNat) ++ tuplify r ++
            s2.drop (obm o.toNat + (arm b).dom)) := by
      simp [List.append_assoc]
    rw [hassoc]
    have hbw : b.dom ≤ w := le_trans (Nat.le_add_left _ _) hle
    have hsub := obm_sub obm hadd hbw
    apply ih (w - b.dom + b.cod) _ t u
      (fun p hp => hb p (List.mem_cons_of_mem _ hp)) hwrest
      (isFlat_append (isFlat_append (isFlat_take hf _) hrflat) (isFlat_drop hf _))
      (by
        simp only [List.length_append, List.length_take, List.length_drop, hrlen,
          hl, hbd, hbc, hadd, hsub]
        omega)
      htl h

theorem applyFunctor_dom {α : Type} (obm : ℕ → ℕ) (arm : Box α → Function α)
    (d : Diagram α) : (applyFunctor obm arm d).dom = obm d.dom :=
  applyFunctorGo_dom obm arm _ _ _

theorem applyFunctor_cod {α : Type} (obm : ℕ → ℕ) (arm : Box α → Function α)
    (hadd : ∀ a b, obm (a + b) = obm a + obm b) (d : Diagram α)
    (hb : ∀ p ∈ d.boxes.zip d.offsets, (arm p.1).cod = obm p.1.cod)
    (hw : widthsOk d.dom (d.boxes.zip d.offsets))
    (hfw : finalWidth d.dom (d.boxes.zip d.offsets) = d.cod) :
    (applyFunctor obm arm d).cod = obm d.cod := by
  rw [applyFunctor, applyFunctorGo_cod obm arm hadd _ _ _ hb hw rfl, hfw]

end Cartesian

namespace Cartesian

/-- C1 (amended): for every valid functor — additive object map `obm`, arrow
map `arm` sending each box to an arrow of the mapped arities that maps
all-scalar tuples to all-scalar tuples of the declared arity — and all
well-formed diagrams `d1, d2`, functor application preserves sequential
composition and tensor on every valid all-scalar input tuple, and sends the
identity diagram of arity `n` to the identity arrow on `obm n` exactly.  (On
valid input tuples containing tuple-valued entries the composition equation
can fail; see the counterexample.) -/
theorem functor_preserves_structure {α : Type}
    (obm : ℕ → ℕ) (arm : Box α → Function α)
    (hadd : ∀ a b, obm (a + b) = obm a + obm b)
    (harm : ∀ b : Box α, (arm b).dom = obm b.dom ∧ (arm b).cod = obm b.cod ∧
       GoodArrow (arm b))
    (d1 d2 : Diagram α) (hw1 : d1.WF) (hw2 : d2.WF) :
    (d1.cod = d2.dom →
      (applyFunctor obm arm d1).thenE (applyFunctor obm arm d2)
        = .ok ((applyFunctor obm arm d1).thenF (applyFunctor obm arm d2)) ∧
      ∀ xs, IsFlat xs → xs.length = obm d1.dom →
        (applyFunctor obm arm (d1.compD d2)).call xs
          = ((applyFunctor obm arm d1).thenF (applyFunctor obm arm d2)).call xs) ∧
    (∀ xs, IsFlat xs → xs.length = obm (d1.dom + d2.dom) →
      (applyFunctor obm arm (d1.tensorD d2)).call xs
        = ((applyFunctor obm arm d1).tensorF (applyFunctor obm arm d2)).call xs) ∧
    (∀ n : ℕ, applyFunctor obm arm (IdD n) = Function.id (obm n)) := by
  obtain ⟨hlen1, hwk1, hfw1⟩ := hw1
  obtain ⟨hlen2, hwk2, hfw2⟩ := hw2
  have hbmem : ∀ (l : List (Box α × ℤ)), ∀ p ∈ l, (arm p.1).dom = obm p.1.dom ∧
      (arm p.1).cod = obm p.1.cod ∧ GoodArrow (arm p.1) := fun l p _ => harm p.1
  refine ⟨?_, ?_, fun n => rfl⟩
  · intro hcomp
    have hF1cod : (applyFunctor obm arm d1).cod = obm d1.cod :=
      applyFunctor_cod obm arm hadd d1 (fun p _ => (harm p.1).2.1) hwk1 hfw1
    have hF2dom : (applyFunctor obm arm d2).dom = obm d2.dom :=
      applyFunctor_dom obm arm d2
    constructor
    · rw [Function.thenE, if_pos]
      rw [hF1cod, hF2dom, hcomp]
    · intro xs hf hl
      obtain ⟨t1, he1, hf1, hl1, hc1⟩ :=
        applyFunctor_spec obm arm hadd d1 (hbmem _) hwk1 xs hf hl
      rw [hfw1] at hl1
      have hl1b : t1.length = obm d2.dom := by rw [hl1, hcomp]
      obtain ⟨t2, he2, hf2, hl2, hc2⟩ :=
        applyFunctor_spec obm arm hadd d2 (hbmem _) hwk2 t1 hf1 hl1b
      have hwcomb : widthsOk (d1.compD d2).dom
          ((d1.compD d2).boxes.zip (d1.compD d2).offsets) := by
        rw [compD_zip d1 d2 hlen1]
        show widthsOk d1.dom _
        apply widthsOk_append _ _ _ hwk1
        rw [hfw1, hcomp]
        exact hwk2
      obtain ⟨tL, heL, hfL, hlL, hcL⟩ :=
        applyFunctor_spec obm arm hadd (d1.compD d2) (hbmem _) hwcomb xs hf hl
      rw [compD_zip d1 d2 hlen1] at heL
      rw [evalBoxes_append obm arm _ _ _ _ he1, he2] at heL
      have htL : t2 = tL := by injection heL
      have eR : ((applyFunctor obm arm d1).thenF (applyFunctor obm arm d2)).call xs =
          if xs.length = (applyFunctor obm arm d1).dom then
            (match (applyFunctor obm arm d1).call xs with
             | Except.ok r => (applyFunctor obm arm d2).call (tuplify r)
             | Except.error e => Except.error e)
          else Except.error PyErr.axiomError := rfl
      rw [hcL, eR, applyFunctor_dom obm arm d1, if_pos hl, hc1]
      show Except.ok (untuplify tL)
        = (applyFunctor obm arm d2).call (tuplify (untuplify t1))
      rw [tuplify_untuplify_flat t1 hf1, hc2, htL]
  · intro xs hf hl
    have hlb : xs.length = obm d1.dom + obm d2.dom := by rw [← hadd]; exact hl
    obtain ⟨t1, he1, hf1, hl1, hc1⟩ :=
      applyFunctor_spec obm arm hadd d1 (hbmem _) hwk1 (xs.take (obm d1.dom))
        (isFlat_take hf _) (by simp only [List.length_take]; omega)
    obtain ⟨t2, he2, hf2, hl2, hc2⟩ :=
      applyFunctor_spec obm arm hadd d2 (hbmem _) hwk2 (xs.drop (obm d1.dom))
        (isFlat_drop hf _) (by simp only [List.length_drop]; omega)
    rw [hfw1] at hl1
    rw [hfw2] at hl2
    have hwten : widthsOk (d1.tensorD d2).dom
        ((d1.tensorD d2).boxes.zip (d1.tensorD d2).offsets) := by
      rw [tensorD_zip d1 d2 hlen1]
      show widthsOk (d1.dom + d2.dom) _
      apply widthsOk_append
      · exact widthsOk_extend _ _ _ hwk1
      · rw [finalWidth_extend _ _ _ hwk1, hfw1]
        exact widthsOk_shift _ _ _ hwk2
    obtain ⟨tL, heL, hfL, hlL, hcL⟩ :=
      applyFunctor_spec obm arm hadd (d1.tensorD d2) (hbmem _) hwten xs hf hl
    rw [tensorD_zip d1 d2 hlen1] at heL
    have heleft : evalBoxes obm arm (d1.boxes.zip d1.offsets) xs
        = .ok (t1 ++ xs.drop (obm d1.dom)) := by
      have h2 := evalBoxes_left obm arm hadd (d1.boxes.zip d1.offsets) d1.dom
        (xs.take (obm d1.dom)) (xs.drop (obm d1.dom)) t1 (hbmem _) hwk1
        (isFlat_take hf _) (by simp only [List.length_take]; omega) he1
      rw [List.take_append_drop] at h2
      exact h2
    rw [evalBoxes_append obm arm _ _ _ _ heleft] at heL
    have heright := evalBoxes_right obm arm hadd d1.cod
      (d2.boxes.zip d2.offsets) d2.dom (xs.drop (obm d1.dom)) t1 t2 (hbmem _)
      hwk2 (isFlat_drop hf _) (by simp only [List.length_drop]; omega) hl1 he2
    rw [heright] at heL
    have htL : t1 ++ t2 = tL := by injection heL
    have eR : ((applyFunctor obm arm d1).tensorF (applyFunctor obm arm d2)).call xs =
        if xs.length = (applyFunctor obm arm d1).dom + (applyFunctor obm arm d2).dom then
          (match (applyFunctor obm arm d1).call
              (xs.take (applyFunctor obm arm d1).dom) with
           | Except.error e => Except.error e
           | Except.ok r0 =>
             match (applyFunctor obm arm d2).call
                 (xs.drop (applyFunctor obm arm d1).dom) with
             | Except.error e => Except.error e
             | Except.ok r1 => Except.ok (untuplify (tuplify r0 ++ tuplify r1)))
        else Except.error PyErr.axiomError := rfl
    rw [hcL, eR, applyFunctor_dom obm arm d1, applyFunctor_dom obm arm d2,
      if_pos hlb, hc1]
    show Except.ok (untuplify tL)
      = (match (applyFunctor obm arm d2).call (xs.drop (obm d1.dom)) with
         | Except.error e => Except.error e
         | Except.ok r1 =>
           Except.ok (untuplify (tuplify (untuplify t1) ++ tuplify r1)))
    rw [hc2]
    show Except.ok (untuplify tL)
      = Except.ok (untuplify (tuplify (untuplify t1) ++ tuplify (untuplify t2)))
    rw [tuplify_untuplify_flat t1 hf1, tuplify_untuplify_flat t2 hf2, htL]

/-- Witness for C1 (amended): the constant-output functor on `Id(1)`
diagrams and scalar inputs. -/
theorem functor_preserves_structure_witness :
    ((applyFunctor (fun k => k) armC ((IdD 1).compD (IdD 1))).call [.atom 7]
      = ((applyFunctor (fun k => k) armC (IdD 1)).thenF
          (applyFunctor (fun k => k) armC (IdD 1))).call [.atom 7]) ∧
    ((applyFunctor (fun k => k) armC ((IdD 1).tensorD (IdD 1))).call
        [.atom 7, .atom 8]
      = ((applyFunctor (fun k => k) armC (IdD 1)).tensorF
          (applyFunctor (fun k => k) armC (IdD 1))).call [.atom 7, .atom 8]) ∧
    applyFunctor (fun k => k) armC (IdD 0) = Function.id 0 := by
  have harm : ∀ b : Box ℕ, (armC b).dom = b.dom ∧ (armC b).cod = b.cod ∧
      GoodArrow (armC b) := by
    intro b
    refine ⟨rfl, rfl, ?_⟩
    intro s hfs hls
    refine ⟨.tup (List.replicate b.cod (.atom 0)), rfl, ?_, by simp [tuplify, armC]⟩
    intro v hv
    exact ⟨0, List.eq_of_mem_replicate (by simpa [tuplify] using hv)⟩
  have hwf : (IdD 1 : Diagram ℕ).WF := ⟨rfl, trivial, rfl⟩
  obtain ⟨hthen, htensor, hid⟩ := functor_preserves_structure (fun k => k) armC
    (fun a b => rfl) harm (IdD 1) (IdD 1) hwf hwf
  obtain ⟨-, hthen2⟩ := hthen rfl
  have hflat1 : IsFlat [PyVal.atom (7 : ℕ)] := by
    intro v hv
    simp only [List.mem_singleton] at hv
    exact ⟨7, hv⟩
  have hflat2 : IsFlat [PyVal.atom (7 : ℕ), PyVal.atom 8] := by
    intro v hv
    simp only [List.mem_cons, List.mem_singleton, List.not_mem_nil, or_false] at hv
    rcases hv with h | h
    · exact ⟨7, h⟩
    · exact ⟨8, h⟩
  exact ⟨hthen2 [.atom 7] hflat1 rfl, htensor [.atom 7, .atom 8] hflat2 rfl, hid 0⟩

end Cartesian

namespace Cartesian

theorem rowZip_succ {α : Type} (bx : Box α) (m c : ℕ) :
    rowZip bx (m + 1) c = (bx, (c : ℤ)) :: rowZip bx m (c + 2) := rfl

theorem rowZip_mem {α : Type} (bx : Box α) :
    ∀ (m c : ℕ) (p : Box α × ℤ), p ∈ rowZip bx m c → p.1 = bx := by
  intro m
  induction m with
  | zero => intro c p hp; simp [rowZip] at hp
  | succ m ih =>
    intro c p hp
    rw [rowZip_succ] at hp
    rcases List.mem_cons.mp hp with h | h
    · rw [h]
    · exact ih (c + 2) p h

theorem phasesZip_succ {α : Type} (n i m : ℕ) :
    (phasesZip n i (m + 1) : List (Box α × ℤ))
      = rowZip SWAPbox (n - i) i ++ phasesZip n (i + 1) m := rfl

theorem phasesZip_mem {α : Type} (n : ℕ) :
    ∀ (m i : ℕ) (p : Box α × ℤ), p ∈ phasesZip n i m → p.1 = SWAPbox := by
  intro m
  induction m with
  | zero => intro i p hp; simp [phasesZip] at hp
  | succ m ih =>
    intro i p hp
    rw [phasesZip_succ] at hp
    rcases List.mem_append.mp hp with h | h
    · exact rowZip_mem SWAPbox _ _ p h
    · exact ih (i + 1) p h

theorem goodArrow_copy {α : Type} : GoodArrow (armStd (COPYbox : Box α)) := by
  intro s hf hl
  have hl1 : s.length = 1 := hl
  obtain ⟨v, hv⟩ := List.length_eq_one.mp hl1
  subst hv
  refine ⟨.tup ([v] ++ [v]), rfl, ?_, rfl⟩
  intro x hx
  obtain ⟨a, ha⟩ := hf v (by simp)
  subst ha
  simp only [tuplify, List.singleton_append, List.mem_cons, List.mem_singleton,
    List.not_mem_nil, or_false] at hx
  rcases hx with h | h <;> exact ⟨a, h⟩

theorem goodArrow_swap {α : Type} : GoodArrow (armStd (SWAPbox : Box α)) := by
  intro s hf hl
  have hl2 : s.length = 2 := hl
  match s, hf, hl2 with
  | [x, y], hf, _ =>
    refine ⟨.tup [y, x], rfl, ?_, rfl⟩
    intro z hz
    simp only [tuplify, List.mem_cons, List.mem_singleton, List.not_mem_nil,
      or_false] at hz
    rcases hz with h | h
    · obtain ⟨a, ha⟩ := hf y (by simp)
      exact ⟨a, by rw [h, ha]⟩
    · obtain ⟨a, ha⟩ := hf x (by simp)
      exact ⟨a, by rw [h, ha]⟩

theorem zip_replicate_rowZip {α : Type} (bx : Box α) :
    ∀ (m c : ℕ),
    List.zip (List.replicate m bx)
        ((List.range m).map (fun t => ((c + 2 * t : ℕ) : ℤ)))
      = rowZip bx m c := by
  intro m
  induction m with
  | zero => intro c; rfl
  | succ m ih =>
    intro c
    rw [List.range_succ_eq_map, List.replicate_succ]
    simp only [List.map_cons, List.map_map, List.zip_cons_cons]
    have h1 : ((c + 2 * 0 : ℕ) : ℤ) = (c : ℤ) := by norm_num
    have h2 : (List.range m).map ((fun t => ((c + 2 * t : ℕ) : ℤ)) ∘ Nat.succ)
        = (List.range m).map (fun t => (((c + 2) + 2 * t : ℕ) : ℤ)) := by
      apply List.map_congr_left
      intro a _
      show ((c + 2 * (a + 1) : ℕ) : ℤ) = (((c + 2) + 2 * a : ℕ) : ℤ)
      congr 1
      omega
    rw [h1, h2, ih (c + 2)]
    rfl

theorem row_fold_closed {α : Type} (bx : Box α) :
    ∀ n : ℕ,
    (List.range n).foldl (fun acc _ => acc.tensorD bx.toDiagram) (IdD 0)
      = ⟨n * bx.dom, n * bx.cod, List.replicate n bx,
          (List.range n).map (fun t => ((t * bx.cod : ℕ) : ℤ))⟩ := by
  intro n
  induction n with
  | zero => simp [IdD, Nat.zero_mul]
  | succ n ih =>
    rw [List.range_succ, List.foldl_append, ih]
    simp only [List.foldl_cons, List.foldl_nil, Diagram.tensorD, Box.toDiagram]
    have hdom : n * bx.dom + bx.dom = (n + 1) * bx.dom := by ring
    have hcod : n * bx.cod + bx.cod = (n + 1) * bx.cod := by ring
    have hboxes : List.replicate n bx ++ [bx] = List.replicate (n + 1) bx :=
      (List.replicate_succ' n bx).symm
    have hoffs : (List.range n).map (fun t => ((t * bx.cod : ℕ) : ℤ)) ++
        [0 + ((n * bx.cod : ℕ) : ℤ)]
        = (List.range n ++ [n]).map (fun t => ((t * bx.cod : ℕ) : ℤ)) := by
      rw [List.map_append]
      simp
    rw [show (List.map (fun o => o + ((n * bx.cod : ℕ) : ℤ)) [0])
        = [0 + ((n * bx.cod : ℕ) : ℤ)] from rfl]
    rw [hdom, hcod, hboxes, hoffs]

theorem copiesRow_closed {α : Type} (n : ℕ) :
    (copiesRow n : Diagram α)
      = ⟨n, 2 * n, List.replicate n COPYbox,
          (List.range n).map (fun t => ((t * 2 : ℕ) : ℤ))⟩ := by
  rw [copiesRow, row_fold_closed]
  show Diagram.mk (n * 1) (n * 2) _ _ = _
  rw [Nat.mul_one, Nat.mul_comm n 2]
  rfl

theorem swapsRow_closed {α : Type} (m : ℕ) :
    (swapsRow m : Diagram α)
      = ⟨m * 2, m * 2, List.replicate m SWAPbox,
          (List.range m).map (fun t => ((t * 2 : ℕ) : ℤ))⟩ := by
  rw [swapsRow, row_fold_closed]
  rfl

theorem copyStep_parts {α : Type} (n : ℕ) (acc : Diagram α) (i : ℕ) :
    (copyStep n acc i).boxes = acc.boxes ++ List.replicate (n - i) SWAPbox ∧
    (copyStep n acc i).offsets = acc.offsets ++
      (List.range (n - i)).map (fun t => ((i + 2 * t : ℕ) : ℤ)) ∧
    (copyStep n acc i).dom = acc.dom := by
  rw [copyStep, swapsRow_closed]
  refine ⟨by simp [Diagram.compD, Diagram.tensorD, IdD], ?_, rfl⟩
  simp only [Diagram.compD, Diagram.tensorD, IdD, List.map_nil, List.nil_append,
    List.append_nil, List.map_map]
  congr 1
  apply List.map_congr_left
  intro a _
  show ((a * 2 : ℕ) : ℤ) + (i : ℤ) = ((i + 2 * a : ℕ) : ℤ)
  push_cast
  ring

end Cartesian

namespace Cartesian

theorem copy_fold_zip {α : Type} (n : ℕ) :
    ∀ (m i : ℕ) (acc : Diagram α), acc.boxes.length = acc.offsets.length →
    (((List.range' i m).foldl (copyStep n) acc).boxes.zip
        ((List.range' i m).foldl (copyStep n) acc).offsets
      = acc.boxes.zip acc.offsets ++ phasesZip n i m) ∧
    ((List.range' i m).foldl (copyStep n) acc).boxes.length
      = ((List.range' i m).foldl (copyStep n) acc).offsets.length ∧
    ((List.range' i m).foldl (copyStep n) acc).dom = acc.dom := by
  intro m
  induction m with
  | zero =>
    intro i acc hla
    refine ⟨by simp [phasesZip], hla, rfl⟩
  | succ m ih =>
    intro i acc hla
    rw [show List.range' i (m + 1) = i :: List.range' (i + 1) m from rfl,
      List.foldl_cons]
    obtain ⟨hbx, hof, hdm⟩ := copyStep_parts n acc i
    have hla2 : (copyStep n acc i).boxes.length = (copyStep n acc i).offsets.length := by
      rw [hbx, hof]
      simp [hla]
    obtain ⟨hz, hl2, hd2⟩ := ih (i + 1) (copyStep n acc i) hla2
    refine ⟨?_, hl2, by rw [hd2, hdm]⟩
    rw [hz, phasesZip_succ]
    rw [show (copyStep n acc i).boxes.zip (copyStep n acc i).offsets
        = acc.boxes.zip acc.offsets ++ rowZip SWAPbox (n - i) i from by
      rw [hbx, hof, List.zip_append hla, zip_replicate_rowZip]]
    rw [List.append_assoc]

theorem copyD_zip {α : Type} (n : ℕ) :
    ((CopyD n : Diagram α).boxes.zip (CopyD n : Diagram α).offsets
      = rowZip COPYbox n 0 ++ phasesZip n 1 (n - 1)) ∧
    (CopyD n : Diagram α).boxes.length = (CopyD n : Diagram α).offsets.length := by
  have hc : (copiesRow n : Diagram α)
      = ⟨n, 2 * n, List.replicate n COPYbox,
          (List.range n).map (fun t => ((t * 2 : ℕ) : ℤ))⟩ := copiesRow_closed n
  have hlc : (copiesRow n : Diagram α).boxes.length = (copiesRow n : Diagram α).offsets.length := by
    rw [hc]
    simp
  obtain ⟨hz, hl2, _⟩ := copy_fold_zip n (n - 1) 1 (copiesRow n) hlc
  have hcz : (copiesRow n : Diagram α).boxes.zip (copiesRow n : Diagram α).offsets
      = rowZip COPYbox n 0 := by
    rw [hc]
    show List.zip (List.replicate n COPYbox)
        ((List.range n).map (fun t => ((t * 2 : ℕ) : ℤ))) = _
    rw [show (List.range n).map (fun t => ((t * 2 : ℕ) : ℤ))
        = (List.range n).map (fun t => ((0 + 2 * t : ℕ) : ℤ)) from
      List.map_congr_left (fun a _ => by congr 1; omega)]
    exact zip_replicate_rowZip COPYbox n 0
  constructor
  · show ((List.range' 1 (n - 1)).foldl (copyStep n) (copiesRow n)).boxes.zip
        ((List.range' 1 (n - 1)).foldl (copyStep n) (copiesRow n)).offsets = _
    rw [hz, hcz]
  · exact hl2

theorem widthsOk_rowZip_copy {α : Type} :
    ∀ (m c w : ℕ), c + m ≤ w →
    widthsOk w (rowZip (COPYbox : Box α) m c) ∧
    finalWidth w (rowZip (COPYbox : Box α) m c) = w + m := by
  intro m
  induction m with
  | zero => intro c w _; exact ⟨trivial, rfl⟩
  | succ m ih =>
    intro c w hcw
    rw [rowZip_succ]
    obtain ⟨h1, h2⟩ := ih (c + 2) (w + 1) (by omega)
    constructor
    · rw [widthsOk_cons]
      refine ⟨Int.natCast_nonneg c, ?_, ?_⟩
      · rw [Int.toNat_natCast]
        show c + 1 ≤ w
        omega
      · show widthsOk (w - 1 + 2) (rowZip COPYbox m (c + 2))
        rw [show w - 1 + 2 = w + 1 from by omega]
        exact h1
    · show finalWidth (w - 1 + 2) (rowZip (COPYbox : Box α) m (c + 2)) = w + (m + 1)
      rw [show w - 1 + 2 = w + 1 from by omega, h2]
      omega

theorem widthsOk_rowZip_swap {α : Type} :
    ∀ (m c w : ℕ), c + 2 * m ≤ w →
    widthsOk w (rowZip (SWAPbox : Box α) m c) ∧
    finalWidth w (rowZip (SWAPbox : Box α) m c) = w := by
  intro m
  induction m with
  | zero => intro c w _; exact ⟨trivial, rfl⟩
  | succ m ih =>
    intro c w hcw
    rw [rowZip_succ]
    obtain ⟨h1, h2⟩ := ih (c + 2) w (by omega)
    constructor
    · rw [widthsOk_cons]
      refine ⟨Int.natCast_nonneg c, ?_, ?_⟩
      · rw [Int.toNat_natCast]
        show c + 2 ≤ w
        omega
      · show widthsOk (w - 2 + 2) (rowZip SWAPbox m (c + 2))
        rw [show w - 2 + 2 = w from by omega]
        exact h1
    · show finalWidth (w - 2 + 2) (rowZip (SWAPbox : Box α) m (c + 2)) = w
      rw [show w - 2 + 2 = w from by omega, h2]

theorem widthsOk_phasesZip {α : Type} (n : ℕ) :
    ∀ (m i : ℕ), 1 ≤ i → i + m = n →
    widthsOk (2 * n) (phasesZip n i m : List (Box α × ℤ)) ∧
    finalWidth (2 * n) (phasesZip n i m : List (Box α × ℤ)) = 2 * n := by
  intro m
  induction m with
  | zero => intro i _ _; exact ⟨trivial, rfl⟩
  | succ m ih =>
    intro i hi hin
    rw [phasesZip_succ]
    have hrow := widthsOk_rowZip_swap (α := α) (n - i) i (2 * n) (by omega)
    obtain ⟨hr1, hr2⟩ := hrow
    obtain ⟨hp1, hp2⟩ := ih (i + 1) (by omega) (by omega)
    constructor
    · apply widthsOk_append _ _ _ hr1
      rw [hr2]
      exact hp1
    · rw [finalWidth_append, hr2, hp2]

end Cartesian

namespace Cartesian

theorem evalBoxes_std_cons {α : Type} (b : Box α) (c : ℕ)
    (rest : List (Box α × ℤ)) (s : List (PyVal α)) :
    evalBoxes (fun k => k) armStd ((b, (c : ℤ)) :: rest) s =
    (match (armStd b).call ((s.drop c).take b.dom) with
     | Except.error e => Except.error e
     | Except.ok r => evalBoxes (fun k => k) armStd rest
         (s.take c ++ tuplify r ++ s.drop (c + b.dom))) := by
  have e : evalBoxes (fun k => k) armStd ((b, (c : ℤ)) :: rest) s =
      (match (armStd b).call ((s.drop (((c : ℤ)).toNat)).take (armStd b).dom) with
       | Except.error e => Except.error e
       | Except.ok r => evalBoxes (fun k => k) armStd rest
           (s.take (((c : ℤ)).toNat) ++ tuplify r ++
             s.drop (((c : ℤ)).toNat + (armStd b).dom))) := rfl
  rw [e, Int.toNat_natCast]
  rfl

theorem evalCopies {α : Type} :
    ∀ (R P : List (PyVal α)),
    evalBoxes (fun k => k) armStd (rowZip COPYbox R.length P.length) (P ++ R)
      = .ok (P ++ join2 R R) := by
  intro R
  induction R with
  | nil => intro P; rfl
  | cons r R ih =>
    intro P
    rw [show (r :: R).length = R.length + 1 from rfl, rowZip_succ, evalBoxes_std_cons]
    have hcall : (armStd (COPYbox : Box α)).call
        (((P ++ (r :: R)).drop P.length).take (COPYbox : Box α).dom)
        = .ok (.tup [r, r]) := by
      rw [List.drop_left]
      rfl
    rw [hcall]
    show evalBoxes (fun k => k) armStd (rowZip COPYbox R.length (P.length + 2))
        ((P ++ (r :: R)).take P.length ++ [r, r] ++
          (P ++ (r :: R)).drop (P.length + 1))
      = .ok (P ++ join2 (r :: R) (r :: R))
    rw [List.take_left, List.drop_append]
    rw [show (r :: R).drop 1 = R from rfl]
    rw [show P.length + 2 = (P ++ [r, r]).length from by simp]
    have h2 := ih (P ++ [r, r])
    rw [show P ++ [r, r] ++ R = (P ++ [r, r]) ++ R from rfl, h2]
    show Except.ok ((P ++ [r, r]) ++ join2 R R)
      = Except.ok (P ++ (r :: r :: join2 R R))
    simp [List.append_assoc]

theorem evalSweep {α : Type} :
    ∀ (u v P T : List (PyVal α)), u.length = v.length →
    evalBoxes (fun k => k) armStd (rowZip SWAPbox u.length P.length)
        (P ++ (join2 u v ++ T))
      = .ok (P ++ (join2 v u ++ T)) := by
  intro u
  induction u with
  | nil =>
    intro v P T hl
    have hv : v = [] := List.length_eq_zero.mp hl.symm
    subst hv
    rfl
  | cons a u ih =>
    intro v P T hl
    match v, hl with
    | b :: v, hl =>
      rw [show (a :: u).length = u.length + 1 from rfl, rowZip_succ,
        evalBoxes_std_cons]
      have hcall : (armStd (SWAPbox : Box α)).call
          (((P ++ (join2 (a :: u) (b :: v) ++ T)).drop P.length).take
            (SWAPbox : Box α).dom) = .ok (.tup [b, a]) := by
        rw [List.drop_left]
        rfl
      rw [hcall]
      show evalBoxes (fun k => k) armStd (rowZip SWAPbox u.length (P.length + 2))
          ((P ++ (join2 (a :: u) (b :: v) ++ T)).take P.length ++ [b, a] ++
            (P ++ (join2 (a :: u) (b :: v) ++ T)).drop (P.length + 2))
        = .ok (P ++ (join2 (b :: v) (a :: u) ++ T))
      rw [List.take_left, List.drop_append]
      rw [show (join2 (a :: u) (b :: v) ++ T).drop 2 = join2 u v ++ T from rfl]
      rw [show P.length + 2 = (P ++ [b, a]).length from by simp]
      have hlu : u.length = v.length := by simpa using hl
      have h2 := ih v (P ++ [b, a]) T hlu
      rw [show P ++ [b, a] ++ (join2 u v ++ T) = (P ++ [b, a]) ++ (join2 u v ++ T)
        from rfl, h2]
      show Except.ok ((P ++ [b, a]) ++ (join2 v u ++ T))
        = Except.ok (P ++ ((b :: a :: join2 v u) ++ T))
      simp [List.append_assoc]

theorem join2_bridge {β : Type} :
    ∀ (u v : List β), u.length = v.length → ∀ (c d : β),
    join2 (c :: v) (u ++ [d]) = c :: (join2 u v ++ [d]) := by
  intro u
  induction u with
  | nil =>
    intro v hl c d
    have hv : v = [] := List.length_eq_zero.mp hl.symm
    subst hv
    rfl
  | cons a u ih =>
    intro v hl c d
    match v, hl with
    | b :: v, hl =>
      show c :: a :: join2 (b :: v) (u ++ [d]) = _
      rw [ih v (by simpa using hl) b d]
      rfl

theorem take_succ_getElem {β : Type} (xs : List β) (k : ℕ) (h : k < xs.length) :
    xs.take (k + 1) = xs.take k ++ [xs[k]] := by
  rw [List.take_succ, List.getElem?_eq_getElem h]
  rfl

theorem drop_getElem_cons {β : Type} (xs : List β) (k : ℕ) (h : k < xs.length) :
    xs.drop k = xs[k] :: xs.drop (k + 1) := List.drop_eq_getElem_cons h

theorem drop_last_singleton {β : Type} (xs : List β) (n : ℕ)
    (hn : xs.length = n) (h1 : 1 ≤ n) : xs.drop (n - 1) = [xs[n - 1]] := by
  have hlt : n - 1 < xs.length := by omega
  rw [drop_getElem_cons xs (n - 1) hlt, show n - 1 + 1 = n from by omega,
    List.drop_eq_nil_of_le (by omega)]

theorem copies_state {β : Type} (xs : List β) (n : ℕ)
    (hn : xs.length = n) (h1 : 1 ≤ n) : join2 xs xs = Sstate n xs 0 := by
  have h0 : 0 < xs.length := by omega
  have hltn : n - 1 < xs.length := by omega
  have hdrop : xs.drop (n - 1) = [xs[n - 1]] := drop_last_singleton xs n hn h1
  have hcons : xs = xs[0] :: xs.drop 1 := by
    have h2 := drop_getElem_cons xs 0 h0
    rw [List.drop_zero] at h2
    exact h2
  have hsnoc : xs = xs.take (n - 1) ++ [xs[n - 1]] := by
    conv_lhs => rw [← List.take_append_drop (n - 1) xs]
    rw [hdrop]
  have hbl : (xs.take (n - 1)).length = (xs.drop 1).length := by
    simp only [List.length_take, List.length_drop, hn]
    omega
  have hbridge := join2_bridge (xs.take (n - 1)) (xs.drop 1) hbl xs[0] xs[n - 1]
  calc join2 xs xs
      = join2 (xs[0] :: xs.drop 1) (xs.take (n - 1) ++ [xs[n - 1]]) := by
        rw [← hcons, ← hsnoc]
    _ = xs[0] :: (join2 (xs.take (n - 1)) (xs.drop 1) ++ [xs[n - 1]]) := hbridge
    _ = Sstate n xs 0 := by
        show _ = xs.take (0 + 1) ++ join2 (xs.take (n - 0 - 1)) (xs.drop (0 + 1))
          ++ xs.drop (n - 0 - 1)
        rw [show n - 0 - 1 = n - 1 from rfl, show (0 : ℕ) + 1 = 1 from rfl]
        rw [take_succ_getElem xs 0 h0, List.take_zero, List.nil_append, hdrop]
        simp [List.append_assoc]

theorem sweep_state {β : Type} (xs : List β) (n i : ℕ)
    (hn : xs.length = n) (hi : 1 ≤ i) (hin : i < n) :
    xs.take i ++ (join2 (xs.drop i) (xs.take (n - i)) ++ xs.drop (n - i))
      = Sstate n xs i := by
  have hlti : i < xs.length := by omega
  have hltk : n - i - 1 < xs.length := by omega
  have hconsd : xs.drop i = xs[i] :: xs.drop (i + 1) := drop_getElem_cons xs i hlti
  have hsnoct : xs.take (n - i) = xs.take (n - i - 1) ++ [xs[n - i - 1]] := by
    conv_lhs => rw [show n - i = (n - i - 1) + 1 from by omega]
    exact take_succ_getElem xs _ hltk
  have hbl : (xs.take (n - i - 1)).length = (xs.drop (i + 1)).length := by
    simp only [List.length_take, List.length_drop, hn]
    omega
  have hbridge := join2_bridge (xs.take (n - i - 1)) (xs.drop (i + 1)) hbl
    xs[i] xs[n - i - 1]
  have hdropk : xs.drop (n - i - 1) = xs[n - i - 1] :: xs.drop (n - i) := by
    rw [drop_getElem_cons xs (n - i - 1) hltk, show n - i - 1 + 1 = n - i from by omega]
  calc xs.take i ++ (join2 (xs.drop i) (xs.take (n - i)) ++ xs.drop (n - i))
      = xs.take i ++ (join2 (xs[i] :: xs.drop (i + 1))
          (xs.take (n - i - 1) ++ [xs[n - i - 1]]) ++ xs.drop (n - i)) := by
        rw [hconsd, hsnoct]
    _ = xs.take i ++ ((xs[i] :: (join2 (xs.take (n - i - 1)) (xs.drop (i + 1))
          ++ [xs[n - i - 1]])) ++ xs.drop (n - i)) := by rw [hbridge]
    _ = Sstate n xs i := by
        show _ = xs.take (i + 1) ++ join2 (xs.take (n - i - 1)) (xs.drop (i + 1))
          ++ xs.drop (n - i - 1)
        rw [take_succ_getElem xs i hlti, hdropk]
        simp only [List.append_assoc, List.cons_append, List.singleton_append,
          List.nil_append]

theorem phases_eval {α : Type} (n : ℕ) (xs : List (PyVal α)) (hn : xs.length = n) :
    ∀ (m i : ℕ), 1 ≤ i → i + m = n →
    evalBoxes (fun k => k) armStd (phasesZip n i m) (Sstate n xs (i - 1))
      = .ok (Sstate n xs (n - 1)) := by
  intro m
  induction m with
  | zero =>
    intro i hi hin
    rw [show i - 1 = n - 1 from by omega]
    rfl
  | succ m ih =>
    intro i hi hin
    rw [phasesZip_succ]
    have hstate : Sstate n xs (i - 1)
        = xs.take i ++ (join2 (xs.take (n - i)) (xs.drop i) ++ xs.drop (n - i)) := by
      show xs.take ((i - 1) + 1) ++ join2 (xs.take (n - (i - 1) - 1))
          (xs.drop ((i - 1) + 1)) ++ xs.drop (n - (i - 1) - 1) = _
      rw [show (i - 1) + 1 = i from by omega,
        show n - (i - 1) - 1 = n - i from by omega]
      simp [List.append_assoc]
    rw [hstate]
    have hswlen : (xs.take (n - i)).length = (xs.drop i).length := by
      simp only [List.length_take, List.length_drop, hn]
      omega
    have hsw := evalSweep (xs.take (n - i)) (xs.drop i) (xs.take i)
      (xs.drop (n - i)) hswlen
    rw [show (xs.take (n - i)).length = n - i from by
        simp only [List.length_take, hn]; omega] at hsw
    rw [show (xs.take i).length = i from by
        simp only [List.length_take, hn]; omega] at hsw
    rw [evalBoxes_append _ _ _ _ _ _ hsw]
    rw [sweep_state xs n i hn hi (by omega)]
    have h2 := ih (i + 1) (by omega) (by omega)
    rw [show i + 1 - 1 = i from by omega] at h2
    exact h2

/-- C4: `Copy(n)` — built by tensoring `n` elementary copy boxes and then,
for `i` from 1 to `n-1`, post-composing with `Id(i) ⊗ (a tensor of n-i
elementary swaps) ⊗ Id(i)` — has domain arity `n`, codomain arity `2n`, and
evaluates as the diagonal map duplicating its `n` inputs: `Copy(n)(xs) = xs
++ xs` for every input of length `n`. -/
theorem copy_is_diagonal {α : Type} (n : ℕ) (xs : List α) (h : xs.length = n) :
    (CopyD n : Diagram α).dom = n ∧ (CopyD n : Diagram α).cod = 2 * n ∧
    (CopyD n : Diagram α).call (xs.map .atom)
      = .ok (untuplify ((xs ++ xs).map .atom)) := by
  rcases Nat.eq_zero_or_pos n with hz | hpos
  · subst hz
    have hxs : xs = [] := List.length_eq_zero.mp h
    subst hxs
    exact ⟨rfl, rfl, rfl⟩
  refine ⟨rfl, rfl, ?_⟩
  obtain ⟨hzip, hlen⟩ := @copyD_zip α n
  have hmem : ∀ p ∈ ((CopyD n : Diagram α).boxes.zip (CopyD n : Diagram α).offsets),
      (armStd p.1).dom = p.1.dom ∧ (armStd p.1).cod = p.1.cod ∧
        GoodArrow (armStd p.1) := by
    intro p hp
    rw [hzip] at hp
    rcases List.mem_append.mp hp with hcase | hcase
    · have hb := rowZip_mem COPYbox n 0 p hcase
      rw [hb]
      exact ⟨rfl, rfl, goodArrow_copy⟩
    · have hb := phasesZip_mem n (n - 1) 1 p hcase
      rw [hb]
      exact ⟨rfl, rfl, goodArrow_swap⟩
  have hwid : widthsOk (CopyD n : Diagram α).dom
      ((CopyD n : Diagram α).boxes.zip (CopyD n : Diagram α).offsets) := by
    rw [hzip]
    show widthsOk n _
    obtain ⟨hcw, hcf⟩ := @widthsOk_rowZip_copy α n 0 n (by omega)
    apply widthsOk_append _ _ _ hcw
    rw [hcf]
    have hph := (@widthsOk_phasesZip α n (n - 1) 1 (le_refl 1) (by omega)).1
    rw [show n + n = 2 * n from by omega]
    exact hph
  obtain ⟨s2, he, hsf, hsl, hc⟩ := applyFunctor_spec (fun k => k) armStd
    (fun a b => rfl) (CopyD n) hmem hwid (xs.map .atom) (isFlat_map_atom xs)
    (by simpa using h)
  rw [hzip] at he
  have hcop := evalCopies (xs.map (.atom : α → PyVal α)) []
  rw [show ((xs.map (.atom : α → PyVal α)).length) = n from by simp [h]] at hcop
  rw [show (([] : List (PyVal α))).length = 0 from rfl] at hcop
  rw [List.nil_append, List.nil_append] at hcop
  rw [evalBoxes_append _ _ _ _ _ _ hcop] at he
  rw [copies_state (xs.map (.atom : α → PyVal α)) n (by simp [h]) hpos] at he
  have hph := phases_eval n (xs.map (.atom : α → PyVal α)) (by simp [h])
    (n - 1) 1 (le_refl 1) (by omega)
  rw [show (1 : ℕ) - 1 = 0 from rfl] at hph
  rw [hph] at he
  have hs2 : Sstate n (xs.map (.atom : α → PyVal α)) (n - 1) = s2 := by
    injection he
  have hfinal : Sstate n (xs.map (.atom : α → PyVal α)) (n - 1)
      = (xs.map .atom) ++ (xs.map .atom) := by
    show (xs.map (.atom : α → PyVal α)).take ((n - 1) + 1) ++
        join2 ((xs.map (.atom : α → PyVal α)).take (n - (n - 1) - 1))
          ((xs.map (.atom : α → PyVal α)).drop ((n - 1) + 1)) ++
        (xs.map (.atom : α → PyVal α)).drop (n - (n - 1) - 1) = _
    rw [show (n - 1) + 1 = n from by omega, show n - (n - 1) - 1 = 0 from by omega]
    rw [List.take_zero, List.drop_zero]
    rw [show join2 ([] : List (PyVal α)) ((xs.map (.atom : α → PyVal α)).drop n)
        = [] from rfl]
    rw [show n = (xs.map (.atom : α → PyVal α)).length from by simp [h],
      List.take_length]
    simp
  show (applyFunctor (fun k => k) armStd (CopyD n)).call (xs.map .atom)
    = .ok (untuplify ((xs ++ xs).map .atom))
  rw [hc, ← hs2, hfinal, List.map_append]

/-- Witness for C4: `Copy(3)` applied to `(0, 1, 2)` yields
`(0, 1, 2, 0, 1, 2)`. -/
theorem copy_is_diagonal_witness :
    (CopyD 3 : Diagram ℕ).dom = 3 ∧ (CopyD 3 : Diagram ℕ).cod = 6 ∧
    (CopyD 3 : Diagram ℕ).call [.atom 0, .atom 1, .atom 2]
      = .ok (.tup [.atom 0, .atom 1, .atom 2, .atom 0, .atom 1, .atom 2]) := by
  obtain ⟨h1, h2, h3⟩ := copy_is_diagonal 3 [0, 1, 2] rfl
  exact ⟨h1, h2, by simpa using h3⟩

end Cartesian
